import Mathlib

/-!
Verification of the core of the `llm_compressor` repository (an LLM-driven
lossless text compressor written in TypeScript) against its natural-language
specification.

The TypeScript sources are shallowly embedded: JavaScript numbers holding
unsigned 32-bit quantities become `Nat` with explicit `% 2 ^ 32` at the
places the source applies `>>> 0` (or where a JS `<<` can wrap), `Uint8Array`
buffers become `List Nat` of byte values, strings on the byte-alphabet side
become lists of UTF-8 byte values / Unicode codepoints, `Float32` probability
inputs become the exact rational values of the floats (multiplying a float by
the power of two `65536` is exact in IEEE-754, so quantization arithmetic over
those rationals is bit-identical to the source), and `throw` sites become
`Except` with one error constructor per throw site.
-/

/-! ### Bit streams (src/core/bit-stream.ts) -/

/-- State of `BitOutputStream`: a byte buffer, a partial byte, and the number
of bits currently held in the partial byte. -/
structure BitOutputStream where
  buffer : List Nat
  currentByte : Nat
  bitPosition : Nat
  deriving Repr, DecidableEq

/-- A fresh `BitOutputStream` (all fields start at zero / empty). -/
def BitOutputStream.empty : BitOutputStream := ⟨[], 0, 0⟩

/-- Embeds `BitOutputStream.writeBit`: `currentByte = (currentByte << 1) | (bit & 1)`
(exact because `currentByte < 2^7` in every reachable state), push the byte
once 8 bits have accumulated. -/
def BitOutputStream.writeBit (s : BitOutputStream) (bit : Nat) : BitOutputStream :=
  let c := s.currentByte * 2 + bit % 2
  if s.bitPosition + 1 = 8 then
    ⟨s.buffer ++ [c], 0, 0⟩
  else
    ⟨s.buffer, c, s.bitPosition + 1⟩

/-- Write a whole list of bits in order (left to right) with `writeBit`. -/
def BitOutputStream.writeList (s : BitOutputStream) (bs : List Nat) : BitOutputStream :=
  bs.foldl BitOutputStream.writeBit s

/-- Embeds `BitOutputStream.writeBits`: writes the low `count` bits of `value`,
highest first; each bit is `(value >>> i) & 1`, and a JS `>>>` first coerces
`value` to uint32 and masks the shift count to 5 bits. -/
def BitOutputStream.writeBits (s : BitOutputStream) (value count : Nat) : BitOutputStream :=
  (List.range count).reverse.foldl
    (fun st i => st.writeBit (value % 2 ^ 32 / 2 ^ (i % 32) % 2)) s

/-- Embeds `BitOutputStream.flush`: left-justify the partial byte
(`currentByte <<= 8 - bitPosition`, exact since `currentByte < 2^7`) and
emit it; a no-op when no partial bits are pending. -/
def BitOutputStream.flush (s : BitOutputStream) : BitOutputStream :=
  if s.bitPosition > 0 then
    ⟨s.buffer ++ [s.currentByte * 2 ^ (8 - s.bitPosition)], 0, 0⟩
  else
    s

/-- Embeds `BitOutputStream.toUint8Array`: the accumulated byte buffer. -/
def BitOutputStream.toUint8Array (s : BitOutputStream) : List Nat := s.buffer

/-- State of `BitInputStream`: an immutable byte buffer and a cursor. -/
structure BitInputStream where
  data : List Nat
  bytePosition : Nat
  bitPosition : Nat
  deriving Repr, DecidableEq

/-- Embeds the `BitInputStream` constructor. -/
def BitInputStream.mkStream (data : List Nat) : BitInputStream := ⟨data, 0, 0⟩

/-- Embeds `BitInputStream.readBit`: returns 0 without advancing past the end
of the buffer, otherwise extracts bit `7 - bitPosition` of the current byte
(`(data[bytePosition] >>> (7 - bitPosition)) & 1`) and advances the cursor. -/
def BitInputStream.readBit (s : BitInputStream) : Nat × BitInputStream :=
  if s.data.length ≤ s.bytePosition then
    (0, s)
  else
    let bit := s.data.getD s.bytePosition 0 / 2 ^ (7 - s.bitPosition) % 2
    if s.bitPosition + 1 = 8 then
      (bit, ⟨s.data, s.bytePosition + 1, 0⟩)
    else
      (bit, ⟨s.data, s.bytePosition, s.bitPosition + 1⟩)

/-- Read `count` bits in order, returning the list of bits read and the final
stream state. -/
def BitInputStream.readList : BitInputStream → Nat → List Nat × BitInputStream
  | s, 0 => ([], s)
  | s, n + 1 =>
    let r1 := s.readBit
    let r2 := r1.2.readList n
    (r1.1 :: r2.1, r2.2)

/-- Embeds `BitInputStream.readBits`: folds `value = (value << 1) | bit` over
`count` single-bit reads.  The JS `<<` works on 32-bit integers, so the stored
value is the bit pattern `(2 * value + bit) mod 2^32` (for `count ≤ 32`,
starting from 0, the reduction never truncates). -/
def BitInputStream.readBits (s : BitInputStream) (count : Nat) : Nat × BitInputStream :=
  let r := s.readList count
  (r.1.foldl (fun v b => (2 * v + b) % 2 ^ 32) 0, r.2)

/-! ### Bit-list abstraction used to reason about the streams -/

/-- The low `n` bits of `v`, most significant first. -/
def natBitsMSB (v : Nat) : Nat → List Nat
  | 0 => []
  | n + 1 => natBitsMSB (v / 2) n ++ [v % 2]

/-- A byte as its 8 bits, most significant first. -/
def byteBits (b : Nat) : List Nat := natBitsMSB b 8

/-- A byte buffer as its bit sequence, MSB-first within each byte. -/
def bytesBits (bs : List Nat) : List Nat := (bs.map byteBits).flatten

/-- The bit sequence an output stream has accumulated so far: the bits of all
completed bytes followed by the pending bits of the partial byte. -/
def BitOutputStream.outBits (s : BitOutputStream) : List Nat :=
  bytesBits s.buffer ++ natBitsMSB s.currentByte s.bitPosition

/-- Well-formedness of an output-stream state: reachable states hold fewer
than 8 pending bits, and the partial byte only holds those bits. -/
def BitOutputStream.WF (s : BitOutputStream) : Prop :=
  s.bitPosition < 8 ∧ s.currentByte < 2 ^ s.bitPosition

theorem BitOutputStream.empty_wf : BitOutputStream.empty.WF := by
  constructor <;> simp [BitOutputStream.empty]

@[simp] theorem natBitsMSB_nil (v : Nat) : natBitsMSB v 0 = [] := rfl

theorem natBitsMSB_length (v n : Nat) : (natBitsMSB v n).length = n := by
  induction n generalizing v with
  | zero => rfl
  | succ n ih => simp [natBitsMSB, ih]

theorem natBitsMSB_append_bit (v r n : Nat) (hr : r < 2) :
    natBitsMSB (2 * v + r) (n + 1) = natBitsMSB v n ++ [r] := by
  have h2 : (2 * v + r) / 2 = v := by omega
  have hm : (2 * v + r) % 2 = r := by omega
  simp [natBitsMSB, h2, hm]

theorem natBitsMSB_zero (n : Nat) : natBitsMSB 0 n = List.replicate n 0 := by
  induction n with
  | zero => rfl
  | succ n ih =>
    show natBitsMSB 0 n ++ [0 % 2] = _
    rw [ih]
    simp [List.replicate_succ' n (0 : Nat)]

theorem natBitsMSB_shift (c p k : Nat) :
    natBitsMSB (c * 2 ^ k) (p + k) = natBitsMSB c p ++ List.replicate k 0 := by
  induction k with
  | zero => simp
  | succ k ih =>
    have : c * 2 ^ (k + 1) = 2 * (c * 2 ^ k) + 0 := by ring
    rw [this, show p + (k + 1) = (p + k) + 1 from rfl,
      natBitsMSB_append_bit _ _ _ (by norm_num), ih]
    simp [List.replicate_succ' k (0 : Nat)]

theorem BitOutputStream.outBits_writeBit (s : BitOutputStream) (b : Nat) (h : s.WF) :
    (s.writeBit b).outBits = s.outBits ++ [b % 2] ∧ (s.writeBit b).WF := by
  obtain ⟨hp, hc⟩ := h
  unfold BitOutputStream.writeBit
  by_cases h8 : s.bitPosition + 1 = 8
  · simp only [h8, if_pos rfl]
    constructor
    · have heq : natBitsMSB (s.currentByte * 2 + b % 2) 8 =
          natBitsMSB s.currentByte 7 ++ [b % 2] := by
        have := natBitsMSB_append_bit s.currentByte (b % 2) 7 (Nat.mod_lt _ (by norm_num))
        simpa [Nat.mul_comm] using this
      have h7 : s.bitPosition = 7 := by omega
      simp [BitOutputStream.outBits, bytesBits, byteBits, heq, h7]
    · exact ⟨by norm_num, by norm_num⟩
  · simp only [if_neg h8]
    constructor
    · have heq : natBitsMSB (s.currentByte * 2 + b % 2) (s.bitPosition + 1) =
          natBitsMSB s.currentByte s.bitPosition ++ [b % 2] := by
        have := natBitsMSB_append_bit s.currentByte (b % 2) s.bitPosition
          (Nat.mod_lt _ (by norm_num))
        simpa [Nat.mul_comm] using this
      simp [BitOutputStream.outBits, heq]
    · refine ⟨by simp; omega, ?_⟩
      show s.currentByte * 2 + b % 2 < 2 ^ (s.bitPosition + 1)
      have hb2 : b % 2 < 2 := Nat.mod_lt _ (by norm_num)
      have : s.currentByte * 2 + b % 2 < 2 ^ s.bitPosition * 2 := by omega
      simpa [pow_succ] using this

theorem BitOutputStream.outBits_writeList (s : BitOutputStream) (bs : List Nat) (h : s.WF) :
    (s.writeList bs).outBits = s.outBits ++ bs.map (· % 2) ∧ (s.writeList bs).WF := by
  induction bs generalizing s with
  | nil => simpa [BitOutputStream.writeList]
  | cons b bs ih =>
    obtain ⟨h1, h2⟩ := s.outBits_writeBit b h
    obtain ⟨h3, h4⟩ := ih (s.writeBit b) h2
    refine ⟨?_, h4⟩
    simp only [BitOutputStream.writeList] at h3 ⊢
    simp [h3, h1]

theorem BitOutputStream.flush_bytesBits (s : BitOutputStream) (h : s.WF) :
    bytesBits s.flush.buffer =
      s.outBits ++ List.replicate ((8 - s.bitPosition) % 8) 0 ∧
      s.flush.bitPosition = 0 := by
  obtain ⟨hp, _⟩ := h
  unfold BitOutputStream.flush
  by_cases h0 : s.bitPosition > 0
  · simp only [if_pos h0]
    constructor
    · have hb : natBitsMSB (s.currentByte * 2 ^ (8 - s.bitPosition)) 8 =
          natBitsMSB s.currentByte s.bitPosition ++
            List.replicate (8 - s.bitPosition) 0 := by
        have := natBitsMSB_shift s.currentByte s.bitPosition (8 - s.bitPosition)
        rwa [show s.bitPosition + (8 - s.bitPosition) = 8 by omega] at this
      have hm : (8 - s.bitPosition) % 8 = 8 - s.bitPosition := by
        apply Nat.mod_eq_of_lt; omega
      simp [bytesBits, byteBits, BitOutputStream.outBits, hb, hm]
    · trivial
  · have hz : s.bitPosition = 0 := by omega
    simp [if_neg h0, BitOutputStream.outBits, hz, natBitsMSB]

theorem natBitsMSB_getD (v n i : Nat) (h : i < n) :
    (natBitsMSB v n).getD i 0 = v / 2 ^ (n - 1 - i) % 2 := by
  induction n generalizing v i with
  | zero => omega
  | succ n ih =>
    show (natBitsMSB (v / 2) n ++ [v % 2]).getD i 0 = _
    rcases Nat.lt_or_ge i n with hi | hi
    · rw [List.getD_append _ _ _ _ (by simpa [natBitsMSB_length] using hi), ih _ _ hi]
      rw [Nat.div_div_eq_div_mul]
      congr 2
      rw [← pow_succ']
      congr 1
      omega
    · have hieq : i = n := by omega
      subst hieq
      rw [List.getD_append_right _ _ _ _ (by simp [natBitsMSB_length])]
      simp [natBitsMSB_length]

theorem bytesBits_length (data : List Nat) : (bytesBits data).length = 8 * data.length := by
  induction data with
  | nil => rfl
  | cons b bs ih =>
    show (byteBits b ++ bytesBits bs).length = _
    simp [ih, byteBits, natBitsMSB_length]
    ring

theorem bytesBits_getD (data : List Nat) (q r : Nat) (hr : r < 8) :
    (bytesBits data).getD (8 * q + r) 0 =
      if q < data.length then data.getD q 0 / 2 ^ (7 - r) % 2 else 0 := by
  induction data generalizing q with
  | nil => simp [bytesBits]
  | cons b bs ih =>
    show ((byteBits b ++ bytesBits bs)).getD (8 * q + r) 0 = _
    rcases Nat.eq_zero_or_pos q with hq | hq
    · subst hq
      rw [List.getD_append _ _ _ _ (by simpa [byteBits, natBitsMSB_length] using hr)]
      rw [if_pos (by simp)]
      simp only [Nat.mul_zero, Nat.zero_add, List.getD_cons_zero]
      rw [byteBits, natBitsMSB_getD b 8 r hr]
    · obtain ⟨q', rfl⟩ : ∃ q', q = q' + 1 := ⟨q - 1, by omega⟩
      rw [List.getD_append_right _ _ _ _ (by simp [byteBits, natBitsMSB_length]; omega)]
      have harg : 8 * (q' + 1) + r - (byteBits b).length = 8 * q' + r := by
        simp [byteBits, natBitsMSB_length]; omega
      rw [harg, ih q']
      simp

/-- The reading relation tying a `BitInputStream` state to the padded bit
function `B` it produces bits from: the next bit read is `B q`, and past the
end of the buffer every read returns 0 (matching `B`, which is 0 there). -/
def GoodStream (s : BitInputStream) (B : Nat → Nat) (q : Nat) : Prop :=
  s.bitPosition < 8 ∧
  (∀ j, (bytesBits s.data).getD j 0 = B j) ∧
  (8 * s.bytePosition + s.bitPosition = q ∨
    (s.data.length ≤ s.bytePosition ∧ 8 * s.data.length ≤ q))

theorem GoodStream.B_zero_past {s : BitInputStream} {B : Nat → Nat} {q : Nat}
    (h : GoodStream s B q) (j : Nat) (hj : 8 * s.data.length ≤ j) : B j = 0 := by
  obtain ⟨-, hB, -⟩ := h
  rw [← hB j]
  apply List.getD_eq_default
  rw [bytesBits_length]
  exact hj

theorem GoodStream.readBit {s : BitInputStream} {B : Nat → Nat} {q : Nat}
    (h : GoodStream s B q) :
    (s.readBit).1 = B q ∧ GoodStream (s.readBit).2 B (q + 1) := by
  obtain ⟨hbp, hB, hpos⟩ := h
  unfold BitInputStream.readBit
  by_cases hend : s.data.length ≤ s.bytePosition
  · have hq : 8 * s.data.length ≤ q := by
      rcases hpos with hpos | hpos
      · omega
      · exact hpos.2
    have hBq : B q = 0 := GoodStream.B_zero_past ⟨hbp, hB, hpos⟩ q hq
    simp only [if_pos hend]
    exact ⟨hBq.symm, hbp, hB, Or.inr ⟨hend, by omega⟩⟩
  · have hlt : s.bytePosition < s.data.length := by omega
    have hq : 8 * s.bytePosition + s.bitPosition = q := by
      rcases hpos with hpos | hpos
      · exact hpos
      · omega
    simp only [if_neg hend]
    have hbit : s.data.getD s.bytePosition 0 / 2 ^ (7 - s.bitPosition) % 2 = B q := by
      rw [← hB q, ← hq, bytesBits_getD _ _ _ hbp, if_pos hlt]
    by_cases h8 : s.bitPosition + 1 = 8
    · simp only [if_pos h8]
      exact ⟨hbit, by norm_num, hB, Or.inl (by simp; omega)⟩
    · simp only [if_neg h8]
      exact ⟨hbit, by simp; omega, hB, Or.inl (by simp; omega)⟩

theorem GoodStream.readList {s : BitInputStream} {B : Nat → Nat} {q : Nat}
    (h : GoodStream s B q) (n : Nat) :
    (s.readList n).1 = (List.range n).map (fun i => B (q + i)) ∧
      GoodStream (s.readList n).2 B (q + n) := by
  induction n generalizing s q with
  | zero => simpa [BitInputStream.readList]
  | succ n ih =>
    obtain ⟨h1, h2⟩ := h.readBit
    obtain ⟨h3, h4⟩ := ih h2
    constructor
    · show (s.readBit).1 :: ((s.readBit).2.readList n).1 = _
      rw [h1, h3, List.range_succ_eq_map]
      simp only [List.map_cons, List.map_map]
      congr 1
      apply List.map_congr_left
      intro i _
      simp only [Function.comp_apply]
      congr 1
      omega
    · show GoodStream ((s.readBit).2.readList n).2 B (q + (n + 1))
      have : q + 1 + n = q + (n + 1) := by omega
      rwa [this] at h4

theorem mkStream_good (data : List Nat) :
    GoodStream (BitInputStream.mkStream data) (fun j => (bytesBits data).getD j 0) 0 := by
  exact ⟨by simp [BitInputStream.mkStream], fun j => rfl, Or.inl rfl⟩

theorem natBitsMSB_cons (v n : Nat) :
    natBitsMSB v (n + 1) = (v / 2 ^ n % 2) :: natBitsMSB v n := by
  induction n generalizing v with
  | zero => simp [natBitsMSB]
  | succ n ih =>
    show natBitsMSB (v / 2) (n + 1) ++ [v % 2] = _
    rw [ih (v / 2), Nat.div_div_eq_div_mul, ← pow_succ']
    rfl

theorem natBitsMSB_eq_map (v n : Nat) :
    natBitsMSB v n = (List.range n).reverse.map (fun i => v / 2 ^ i % 2) := by
  induction n with
  | zero => rfl
  | succ n ih =>
    rw [natBitsMSB_cons, ih, List.range_succ]
    simp

theorem writeBits_eq_writeList (s : BitOutputStream) (v n : Nat) (hn : n ≤ 32) :
    s.writeBits v n = s.writeList (natBitsMSB (v % 2 ^ 32) n) := by
  rw [BitOutputStream.writeList, natBitsMSB_eq_map, List.foldl_map,
    BitOutputStream.writeBits]
  apply List.foldl_ext
  intro st i hi
  have hlt : i < n := by
    have := List.mem_reverse.mp hi
    simpa using this
  rw [Nat.mod_eq_of_lt (show i < 32 by omega)]

theorem foldl_bits_plain (l : List Nat) (hl : ∀ b ∈ l, b ≤ 1) (a0 : Nat)
    (h : (a0 + 1) * 2 ^ l.length ≤ 2 ^ 32) :
    l.foldl (fun v b => (2 * v + b) % 2 ^ 32) a0 = l.foldl (fun v b => 2 * v + b) a0 ∧
      l.foldl (fun v b => 2 * v + b) a0 < (a0 + 1) * 2 ^ l.length := by
  induction l generalizing a0 with
  | nil =>
    refine ⟨rfl, ?_⟩
    simp
  | cons b l ih =>
    have hb : b ≤ 1 := hl b (by simp)
    have hlen : (2 * a0 + b + 1) * 2 ^ l.length ≤ 2 ^ 32 := by
      calc (2 * a0 + b + 1) * 2 ^ l.length ≤ (2 * (a0 + 1)) * 2 ^ l.length := by
            apply Nat.mul_le_mul_right; omega
        _ = (a0 + 1) * 2 ^ (l.length + 1) := by ring
        _ ≤ 2 ^ 32 := h
    have hsmall : 2 * a0 + b < 2 ^ 32 := by
      calc 2 * a0 + b < 2 * a0 + b + 1 := by omega
        _ ≤ (2 * a0 + b + 1) * 2 ^ l.length := Nat.le_mul_of_pos_right _ (by positivity)
        _ ≤ 2 ^ 32 := hlen
    obtain ⟨ih1, ih2⟩ := ih (fun x hx => hl x (by simp [hx])) (2 * a0 + b) hlen
    refine ⟨?_, ?_⟩
    · show List.foldl _ ((2 * a0 + b) % 2 ^ 32) l = _
      rw [Nat.mod_eq_of_lt hsmall, ih1]
      simp [List.foldl_cons]
    · calc (b :: l).foldl (fun v b => 2 * v + b) a0
          = l.foldl (fun v b => 2 * v + b) (2 * a0 + b) := by simp [List.foldl_cons]
        _ < (2 * a0 + b + 1) * 2 ^ l.length := ih2
        _ ≤ (2 * (a0 + 1)) * 2 ^ l.length := by apply Nat.mul_le_mul_right; omega
        _ = (a0 + 1) * 2 ^ (l.length + 1) := by ring
        _ = (a0 + 1) * 2 ^ (b :: l).length := by simp

theorem foldl_natBitsMSB (v n : Nat) (a0 : Nat) :
    (natBitsMSB v n).foldl (fun a b => 2 * a + b) a0 = a0 * 2 ^ n + v % 2 ^ n := by
  induction n generalizing v a0 with
  | zero => simp [Nat.mod_one]
  | succ n ih =>
    show ((natBitsMSB (v / 2) n) ++ [v % 2]).foldl _ a0 = _
    rw [List.foldl_append, ih]
    simp only [List.foldl_cons, List.foldl_nil]
    have h1 : v % 2 ^ (n + 1) = 2 * (v / 2 % 2 ^ n) + v % 2 := by
      have hq : v = (2 * (v / 2 % 2 ^ n) + v % 2) + (v / 2 / 2 ^ n) * (2 * 2 ^ n) := by
        conv_lhs => rw [← Nat.div_add_mod v 2, ← Nat.div_add_mod (v / 2) (2 ^ n)]
        ring
      rw [pow_succ']
      conv_lhs => rw [hq]
      rw [Nat.add_mul_mod_self_right]
      apply Nat.mod_eq_of_lt
      have hr : v / 2 % 2 ^ n < 2 ^ n := Nat.mod_lt _ (by positivity)
      have hs : v % 2 < 2 := Nat.mod_lt _ (by norm_num)
      omega
    rw [h1]
    ring

theorem natBitsMSB_le_one (v n : Nat) : ∀ b ∈ natBitsMSB v n, b ≤ 1 := by
  induction n generalizing v with
  | zero => simp
  | succ n ih =>
    intro b hb
    rcases List.mem_append.mp hb with hb | hb
    · exact ih _ _ hb
    · simp at hb
      omega

theorem readList_le_one (s : BitInputStream) (n : Nat) :
    ∀ b ∈ (s.readList n).1, b ≤ 1 := by
  induction n generalizing s with
  | zero => simp [BitInputStream.readList]
  | succ n ih =>
    intro b hb
    have hcons : (s.readList (n + 1)).1 = (s.readBit).1 :: ((s.readBit).2.readList n).1 := rfl
    rw [hcons] at hb
    rcases List.mem_cons.mp hb with hb | hb
    · subst hb
      unfold BitInputStream.readBit
      by_cases hend : s.data.length ≤ s.bytePosition
      · simp [if_pos hend]
      · simp only [if_neg hend]
        by_cases h8 : s.bitPosition + 1 = 8 <;> simp [h8] <;> omega
    · exact ih _ _ hb

theorem replicate_zero_getD (m j : Nat) : (List.replicate m (0 : Nat)).getD j 0 = 0 := by
  rcases Nat.lt_or_ge j m with h | h
  · rw [List.getD_eq_getElem _ _ (by simpa using h)]
    simp
  · exact List.getD_eq_default _ _ (by simpa using h)

theorem getD_append_replicate_zero (xs : List Nat) (m j : Nat) :
    (xs ++ List.replicate m (0 : Nat)).getD j 0 = xs.getD j 0 := by
  rcases Nat.lt_or_ge j xs.length with h | h
  · exact List.getD_append _ _ _ _ h
  · rw [List.getD_append_right _ _ _ _ h, replicate_zero_getD,
      List.getD_eq_default _ _ h]

theorem map_range_getD (bs : List Nat) (k : Nat) :
    (List.range (bs.length + k)).map (fun i => bs.getD i 0) =
      bs ++ List.replicate k 0 := by
  induction bs with
  | nil =>
    apply List.eq_replicate_iff.mpr
    refine ⟨by simp, ?_⟩
    intro b hb
    rw [List.mem_map] at hb
    obtain ⟨i, -, hi⟩ := hb
    simp at hi
    omega
  | cons b tl ih =>
    have hlen : (b :: tl).length + k = (tl.length + k) + 1 := by simp; omega
    rw [hlen, List.range_succ_eq_map]
    simp only [List.map_cons, List.map_map]
    have hhead : (b :: tl).getD 0 0 = b := rfl
    rw [hhead]
    have htail : ((fun i => (b :: tl).getD i 0) ∘ Nat.succ) = fun i => tl.getD i 0 := by
      funext i
      simp [List.getD_cons_succ]
    rw [htail, ih]
    rfl

/-- Claim C5 — bit-stream round trip.  Writing any 0/1 bit sequence, flushing,
and reading back from a `BitInputStream` over the produced bytes yields the
original bits followed by zeros indefinitely; batched `writeBits` with widths
`1..32` performs exactly the corresponding MSB-first single-bit writes, and
batched `readBits` folds the same single-bit reads back into a value, which
recovers `v mod 2^n` for a written group `writeBits v n`. -/
theorem bit_stream_roundtrip (bs : List Nat) (hb : ∀ b ∈ bs, b ≤ 1) (k : Nat) :
    ((BitInputStream.mkStream
        ((BitOutputStream.empty.writeList bs).flush.toUint8Array)).readList
          (bs.length + k)).1 = bs ++ List.replicate k 0 ∧
    (∀ (s : BitOutputStream) (v n : Nat), 1 ≤ n → n ≤ 32 →
      s.writeBits v n = s.writeList (natBitsMSB (v % 2 ^ 32) n)) ∧
    (∀ (s : BitInputStream) (n : Nat), 1 ≤ n → n ≤ 32 →
      (s.readBits n).1 = ((s.readList n).1).foldl (fun v b => 2 * v + b) 0 ∧
        (s.readBits n).1 < 2 ^ n) ∧
    (∀ (v n : Nat), n ≤ 32 →
      (natBitsMSB (v % 2 ^ 32) n).foldl (fun a b => 2 * a + b) 0 = v % 2 ^ n) := by
  refine ⟨?_, ?_, ?_, ?_⟩
  · obtain ⟨hout, hwf1⟩ := BitOutputStream.outBits_writeList BitOutputStream.empty bs
      BitOutputStream.empty_wf
    have hmap : bs.map (· % 2) = bs := by
      conv_rhs => rw [← List.map_id bs]
      apply List.map_congr_left
      intro b hbm
      have := hb b hbm
      simp only [id]
      omega
    have houtbs : (BitOutputStream.empty.writeList bs).outBits = bs := by
      rw [hout, hmap]
      rfl
    obtain ⟨hfl, -⟩ := BitOutputStream.flush_bytesBits _ hwf1
    rw [houtbs] at hfl
    have hgood := mkStream_good ((BitOutputStream.empty.writeList bs).flush.toUint8Array)
    obtain ⟨hrd, -⟩ := hgood.readList (bs.length + k)
    rw [hrd]
    have hBj : ∀ j, (bytesBits ((BitOutputStream.empty.writeList bs).flush.toUint8Array)).getD j 0
        = bs.getD j 0 := by
      intro j
      show (bytesBits (BitOutputStream.empty.writeList bs).flush.buffer).getD j 0 = _
      rw [hfl, getD_append_replicate_zero]
    calc (List.range (bs.length + k)).map
          (fun i => (bytesBits ((BitOutputStream.empty.writeList bs).flush.toUint8Array)).getD (0 + i) 0)
        = (List.range (bs.length + k)).map (fun i => bs.getD i 0) := by
          apply List.map_congr_left
          intro i _
          rw [Nat.zero_add, hBj]
      _ = bs ++ List.replicate k 0 := map_range_getD bs k
  · intro s v n _ hn
    exact writeBits_eq_writeList s v n hn
  · intro s n hn1 hn
    have hle := readList_le_one s n
    have hlen2 : (0 + 1) * 2 ^ (s.readList n).1.length ≤ 2 ^ 32 := by
      have : (s.readList n).1.length = n := by
        clear hle hn1 hn
        induction n generalizing s with
        | zero => rfl
        | succ m ih => simpa [BitInputStream.readList] using ih (s.readBit).2
      rw [this]
      simpa using Nat.pow_le_pow_right (by norm_num) hn
    obtain ⟨h1, h2⟩ := foldl_bits_plain _ hle 0 hlen2
    have hlen : (s.readList n).1.length = n := by
      clear hle hlen2 h1 h2 hn1 hn
      induction n generalizing s with
      | zero => rfl
      | succ m ih => simpa [BitInputStream.readList] using ih (s.readBit).2
    constructor
    · show ((s.readList n).1.foldl (fun v b => (2 * v + b) % 2 ^ 32) 0) = _
      exact h1
    · show ((s.readList n).1.foldl (fun v b => (2 * v + b) % 2 ^ 32) 0) < 2 ^ n
      rw [h1]
      calc (s.readList n).1.foldl (fun v b => 2 * v + b) 0
          < (0 + 1) * 2 ^ (s.readList n).1.length := h2
        _ = 2 ^ n := by rw [hlen]; ring
  · intro v n hn
    rw [foldl_natBitsMSB]
    have : v % 2 ^ 32 % 2 ^ n = v % 2 ^ n := by
      apply Nat.mod_mod_of_dvd
      exact pow_dvd_pow 2 hn
    simpa using this

/-- Witness for C5 at the spec's seed scenario: the bits `1,0,1,1,0,1,0,0`
round-trip through one packed byte (0xB4) followed by zero padding. -/
theorem bit_stream_roundtrip_witness :
    (∀ b ∈ [1, 0, 1, 1, 0, 1, 0, 0], b ≤ 1) ∧
    ((BitInputStream.mkStream
        ((BitOutputStream.empty.writeList [1, 0, 1, 1, 0, 1, 0, 0]).flush.toUint8Array)).readList
          ([1, 0, 1, 1, 0, 1, 0, 0].length + 3)).1 =
      [1, 0, 1, 1, 0, 1, 0, 0] ++ List.replicate 3 0 :=
  ⟨by decide, (bit_stream_roundtrip [1, 0, 1, 1, 0, 1, 0, 0] (by decide) 3).1⟩

/-! ### Probability quantizer (src/core/cumulative-dist.ts)

The source takes a `Float32Array`.  Reading a 32-bit float widens it exactly
to a 64-bit float, and multiplying by `PROB_SCALE = 2^16` is exact in binary
floating point, so `Math.floor(probs[i] * PROB_SCALE)` equals the floor of
the exact rational value of the float times `2^16`.  The embedding therefore
takes the list of exact rational values of the input floats. -/

/-- Scale factor `PROB_SCALE = 65536` for converting probabilities to integers. -/
def PROB_SCALE : Nat := 65536

/-- Minimum count `MIN_COUNT = 1` for any symbol. -/
def MIN_COUNT : Nat := 1

/-- One entry of the first pass:
`counts[i] = Math.max(MIN_COUNT, Math.floor(probs[i] * PROB_SCALE))`, stored
into a `Uint32Array` (which takes the value mod `2^32`). -/
def quantCount (p : ℚ) : Nat :=
  (max (MIN_COUNT : ℤ) ⌊p * (PROB_SCALE : ℚ)⌋).toNat % 2 ^ 32

/-- Embeds `buildCumulativeDistribution`: `cumulative[i]` is the running sum
of `counts[0..i-1]` (and `cumulative[n]` the total), each stored into a
`Uint32Array` entry, hence mod `2^32`.  (The JS accumulator `sum` is a 64-bit
float, exact below `2^53`; the stored entry wraps at `2^32` first.) -/
def buildCumulativeDistribution (probs : List ℚ) : List Nat :=
  (List.range (probs.length + 1)).map
    (fun i => ((probs.map quantCount).take i).sum % 2 ^ 32)

theorem quantCount_bounds (p : ℚ) (h0 : 0 ≤ p) (h1 : p ≤ 1) :
    1 ≤ quantCount p ∧ quantCount p ≤ 2 ^ 16 := by
  have hfl : (0 : ℤ) ≤ ⌊p * (PROB_SCALE : ℚ)⌋ := by
    apply Int.floor_nonneg.mpr
    positivity
  have hfu : ⌊p * (PROB_SCALE : ℚ)⌋ ≤ 65536 := by
    have hle : p * (PROB_SCALE : ℚ) ≤ (65536 : ℚ) := by
      calc p * (PROB_SCALE : ℚ) ≤ 1 * (PROB_SCALE : ℚ) := by
            apply mul_le_mul_of_nonneg_right h1
            norm_num [PROB_SCALE]
        _ = (65536 : ℚ) := by norm_num [PROB_SCALE]
    calc ⌊p * (PROB_SCALE : ℚ)⌋ ≤ ⌊(65536 : ℚ)⌋ := Int.floor_mono hle
      _ = 65536 := by norm_num
  have hmax1 : (1 : ℤ) ≤ max (MIN_COUNT : ℤ) ⌊p * (PROB_SCALE : ℚ)⌋ := by
    simp [MIN_COUNT]
  have hmaxU : max (MIN_COUNT : ℤ) ⌊p * (PROB_SCALE : ℚ)⌋ ≤ 65536 := by
    apply max_le _ hfu
    norm_num [MIN_COUNT]
  have htn1 : 1 ≤ (max (MIN_COUNT : ℤ) ⌊p * (PROB_SCALE : ℚ)⌋).toNat := by omega
  have htnU : (max (MIN_COUNT : ℤ) ⌊p * (PROB_SCALE : ℚ)⌋).toNat ≤ 65536 := by omega
  have hid : (max (MIN_COUNT : ℤ) ⌊p * (PROB_SCALE : ℚ)⌋).toNat % 2 ^ 32 =
      (max (MIN_COUNT : ℤ) ⌊p * (PROB_SCALE : ℚ)⌋).toNat := by
    apply Nat.mod_eq_of_lt
    omega
  unfold quantCount
  rw [hid]
  exact ⟨htn1, by omega⟩

theorem counts_sum_le (probs : List ℚ) (h : ∀ p ∈ probs, 0 ≤ p ∧ p ≤ 1) (i : Nat) :
    ((probs.map quantCount).take i).sum ≤ i * 2 ^ 16 ∧
      ((probs.map quantCount).take i).sum ≤ probs.length * 2 ^ 16 := by
  have hbound : ∀ x ∈ (probs.map quantCount).take i, x ≤ 2 ^ 16 := by
    intro x hx
    have hx' : x ∈ probs.map quantCount := List.mem_of_mem_take hx
    obtain ⟨p, hp, rfl⟩ := List.mem_map.mp hx'
    exact (quantCount_bounds p (h p hp).1 (h p hp).2).2
  have h1 := List.sum_le_card_nsmul _ _ hbound
  have hl1 : ((probs.map quantCount).take i).length ≤ i := by
    simp [List.length_take]
  have hl2 : ((probs.map quantCount).take i).length ≤ probs.length := by
    simp [List.length_take]
  constructor
  · calc ((probs.map quantCount).take i).sum
        ≤ ((probs.map quantCount).take i).length • 2 ^ 16 := h1
      _ = ((probs.map quantCount).take i).length * 2 ^ 16 := by simp
      _ ≤ i * 2 ^ 16 := Nat.mul_le_mul_right _ hl1
  · calc ((probs.map quantCount).take i).sum
        ≤ ((probs.map quantCount).take i).length • 2 ^ 16 := h1
      _ = ((probs.map quantCount).take i).length * 2 ^ 16 := by simp
      _ ≤ probs.length * 2 ^ 16 := Nat.mul_le_mul_right _ hl2

/-- Claim C3 — quantizer shape, monotonicity and total bound.  For a
probability vector (entries in `[0,1]`, vocabulary-sized, i.e. fewer than
`2^16` entries so that no `Uint32Array` entry can wrap),
`buildCumulativeDistribution` returns `C` of length `n+1` with `C[0] = 0`,
`C` strictly increasing (every per-symbol count is at least 1), and
`C[n] ≤ n * 2^16`. -/
theorem buildCumulativeDistribution_spec (probs : List ℚ)
    (h : ∀ p ∈ probs, 0 ≤ p ∧ p ≤ 1) (hn : probs.length < 2 ^ 16) :
    (buildCumulativeDistribution probs).length = probs.length + 1 ∧
    (buildCumulativeDistribution probs).getD 0 0 = 0 ∧
    (buildCumulativeDistribution probs).Chain' (· < ·) ∧
    (buildCumulativeDistribution probs).getD probs.length 0 ≤ probs.length * 2 ^ 16 := by
  have hnowrap : ∀ i, ((probs.map quantCount).take i).sum % 2 ^ 32 =
      ((probs.map quantCount).take i).sum := by
    intro i
    apply Nat.mod_eq_of_lt
    have := (counts_sum_le probs h i).2
    calc ((probs.map quantCount).take i).sum ≤ probs.length * 2 ^ 16 := this
      _ < 2 ^ 16 * 2 ^ 16 := by
          apply Nat.mul_lt_mul_of_lt_of_le hn (le_refl _)
          norm_num
      _ ≤ 2 ^ 32 := by norm_num
  refine ⟨?_, ?_, ?_, ?_⟩
  · simp [buildCumulativeDistribution]
  · unfold buildCumulativeDistribution
    rw [List.getD_eq_getElem _ _ (by simp)]
    simp
  · unfold buildCumulativeDistribution
    rw [List.chain'_map]
    rw [List.chain'_range_succ]
    intro m hm
    rw [hnowrap m, hnowrap (m + 1)]
    have hstep : ((probs.map quantCount).take (m + 1)).sum =
        ((probs.map quantCount).take m).sum + (probs.map quantCount).getD m 0 := by
      rw [List.sum_take_succ _ _ (by simpa using hm)]
      congr 1
      rw [List.getD_eq_getElem _ _ (by simpa using hm)]
    have hpos : 1 ≤ (probs.map quantCount).getD m 0 := by
      rw [List.getD_eq_getElem _ _ (by simpa using hm)]
      rw [List.getElem_map]
      exact (quantCount_bounds _ (h _ (List.getElem_mem _)).1
        (h _ (List.getElem_mem _)).2).1
    omega
  · unfold buildCumulativeDistribution
    rw [List.getD_eq_getElem _ _ (by simp)]
    rw [List.getElem_map, List.getElem_range]
    rw [hnowrap]
    exact (counts_sum_le probs h probs.length).1

/-- Witness for C3 on the probability vector `[1/2, 1/4, 1/4]`. -/
theorem buildCumulativeDistribution_spec_witness :
    (∀ p ∈ [(1 : ℚ)/2, 1/4, 1/4], 0 ≤ p ∧ p ≤ 1) ∧
    ([(1 : ℚ)/2, 1/4, 1/4].length < 2 ^ 16) ∧
    ((buildCumulativeDistribution [(1 : ℚ)/2, 1/4, 1/4]).length =
        [(1 : ℚ)/2, 1/4, 1/4].length + 1 ∧
      (buildCumulativeDistribution [(1 : ℚ)/2, 1/4, 1/4]).getD 0 0 = 0 ∧
      (buildCumulativeDistribution [(1 : ℚ)/2, 1/4, 1/4]).Chain' (· < ·) ∧
      (buildCumulativeDistribution [(1 : ℚ)/2, 1/4, 1/4]).getD
          [(1 : ℚ)/2, 1/4, 1/4].length 0 ≤ [(1 : ℚ)/2, 1/4, 1/4].length * 2 ^ 16) :=
  ⟨by norm_num, by norm_num,
    buildCumulativeDistribution_spec [(1 : ℚ)/2, 1/4, 1/4] (by norm_num) (by norm_num)⟩

/-! ### Byte alphabet (src/tokenizer/byte-encoder.ts)

Strings are represented by their sequences of Unicode codepoints (on the
encoded side) and UTF-8 byte values (on the byte side); `TextEncoder` /
`TextDecoder` are the standard UTF-8 bijection between the two and are not
re-modelled. The `Map` objects become association lists in insertion order;
all keys inserted are distinct, so `lookup` agrees with `Map.get`. -/

/-- The three self-mapped byte ranges of `buildByteEncoder`:
`0x21..0x7e`, `0xa1..0xac`, `0xae..0xff`. -/
def printableRanges : List (Nat × Nat) := [(0x21, 0x7e), (0xa1, 0xac), (0xae, 0xff)]

/-- First pass of `buildByteEncoder`: each byte in the printable ranges maps
to its own codepoint. -/
def byteEncoderFirstPass : List (Nat × Nat) :=
  printableRanges.flatMap
    (fun r => (List.range (r.2 + 1 - r.1)).map (fun i => (r.1 + i, r.1 + i)))

/-- Embeds `buildByteEncoder`: after the first pass, the second pass walks
bytes `0..255` in ascending order and assigns each unmapped byte the next
codepoint starting at `256`. -/
def buildByteEncoder : List (Nat × Nat) :=
  ((List.range 256).foldl
    (fun acc b =>
      if (acc.1.lookup b).isSome then acc
      else (acc.1 ++ [(b, acc.2)], acc.2 + 1))
    (byteEncoderFirstPass, 256)).1

/-- Embeds `buildByteDecoder`: invert the encoder map entry by entry (the
codepoints are distinct, so the association list is the exact inverse). -/
def buildByteDecoder : List (Nat × Nat) :=
  buildByteEncoder.map (fun e => (e.2, e.1))

/-- The codepoint a byte maps to (source: `byteEncoder.get(byte)!`; total on
bytes `0..255`, where the lookup always succeeds). -/
def encodeByte (b : Nat) : Nat := (buildByteEncoder.lookup b).getD 0

/-- Embeds `encodeBytes` on the UTF-8 bytes of the input string: map each
byte through the byte alphabet. -/
def encodeBytes (bytes : List Nat) : List Nat := bytes.map encodeByte

/-- Embeds `decodeBytes` on the codepoints of the encoded string: codepoints
with no inverse entry are silently skipped (`if (byte !== undefined)`). -/
def decodeBytes (encoded : List Nat) : List Nat :=
  encoded.filterMap (fun c => buildByteDecoder.lookup c)

/-- Membership in the self-mapped printable ranges. -/
def isPrintableByte (b : Nat) : Bool :=
  (0x21 ≤ b && b ≤ 0x7e) || (0xa1 ≤ b && b ≤ 0xac) || (0xae ≤ b && b ≤ 0xff)

/-- The bytes outside the printable ranges, in ascending order. -/
def unmappedBytes : List Nat := (List.range 256).filter (fun b => !isPrintableByte b)


/-- The byte-alphabet table that `buildByteEncoder` computes, as an explicit
literal (proved equal to the computed table in `buildByteEncoder_eq_lit`);
used only to keep kernel evaluation of the 256-entry facts cheap. -/
def byteEncoderTableLit : List (Nat × Nat) := [(33, 33), (34, 34), (35, 35), (36, 36), (37,
  37), (38, 38), (39, 39), (40, 40), (41, 41), (42, 42), (43, 43), (44, 44), (45, 45), (46,
  46), (47, 47), (48, 48), (49, 49), (50, 50), (51, 51), (52, 52), (53, 53), (54, 54), (55,
  55), (56, 56), (57, 57), (58, 58), (59, 59), (60, 60), (61, 61), (62, 62), (63, 63), (64,
  64), (65, 65), (66, 66), (67, 67), (68, 68), (69, 69), (70, 70), (71, 71), (72, 72), (73,
  73), (74, 74), (75, 75), (76, 76), (77, 77), (78, 78), (79, 79), (80, 80), (81, 81), (82,
  82), (83, 83), (84, 84), (85, 85), (86, 86), (87, 87), (88, 88), (89, 89), (90, 90), (91,
  91), (92, 92), (93, 93), (94, 94), (95, 95), (96, 96), (97, 97), (98, 98), (99, 99), (100,
  100), (101, 101), (102, 102), (103, 103), (104, 104), (105, 105), (106, 106), (107, 107),
  (108, 108), (109, 109), (110, 110), (111, 111), (112, 112), (113, 113), (114, 114), (115,
  115), (116, 116), (117, 117), (118, 118), (119, 119), (120, 120), (121, 121), (122, 122),
  (123, 123), (124, 124), (125, 125), (126, 126), (161, 161), (162, 162), (163, 163), (164,
  164), (165, 165), (166, 166), (167, 167), (168, 168), (169, 169), (170, 170), (171, 171),
  (172, 172), (174, 174), (175, 175), (176, 176), (177, 177), (178, 178), (179, 179), (180,
  180), (181, 181), (182, 182), (183, 183), (184, 184), (185, 185), (186, 186), (187, 187),
  (188, 188), (189, 189), (190, 190), (191, 191), (192, 192), (193, 193), (194, 194), (195,
  195), (196, 196), (197, 197), (198, 198), (199, 199), (200, 200), (201, 201), (202, 202),
  (203, 203), (204, 204), (205, 205), (206, 206), (207, 207), (208, 208), (209, 209), (210,
  210), (211, 211), (212, 212), (213, 213), (214, 214), (215, 215), (216, 216), (217, 217),
  (218, 218), (219, 219), (220, 220), (221, 221), (222, 222), (223, 223), (224, 224), (225,
  225), (226, 226), (227, 227), (228, 228), (229, 229), (230, 230), (231, 231), (232, 232),
  (233, 233), (234, 234), (235, 235), (236, 236), (237, 237), (238, 238), (239, 239), (240,
  240), (241, 241), (242, 242), (243, 243), (244, 244), (245, 245), (246, 246), (247, 247),
  (248, 248), (249, 249), (250, 250), (251, 251), (252, 252), (253, 253), (254, 254), (255,
  255), (0, 256), (1, 257), (2, 258), (3, 259), (4, 260), (5, 261), (6, 262), (7, 263), (8,
  264), (9, 265), (10, 266), (11, 267), (12, 268), (13, 269), (14, 270), (15, 271), (16, 272),
  (17, 273), (18, 274), (19, 275), (20, 276), (21, 277), (22, 278), (23, 279), (24, 280), (25,
  281), (26, 282), (27, 283), (28, 284), (29, 285), (30, 286), (31, 287), (32, 288), (127,
  289), (128, 290), (129, 291), (130, 292), (131, 293), (132, 294), (133, 295), (134, 296),
  (135, 297), (136, 298), (137, 299), (138, 300), (139, 301), (140, 302), (141, 303), (142,
  304), (143, 305), (144, 306), (145, 307), (146, 308), (147, 309), (148, 310), (149, 311),
  (150, 312), (151, 313), (152, 314), (153, 315), (154, 316), (155, 317), (156, 318), (157,
  319), (158, 320), (159, 321), (160, 322), (173, 323)]

set_option maxRecDepth 40000 in
theorem buildByteEncoder_eq_lit : buildByteEncoder = byteEncoderTableLit := by rfl

set_option maxRecDepth 40000 in
theorem printable_self_lookup :
    ∀ b, b < 256 → isPrintableByte b = true → buildByteEncoder.lookup b = some b := by
  simp only [buildByteEncoder_eq_lit]
  decide

set_option maxRecDepth 40000 in
theorem unmapped_lookup :
    unmappedBytes.length = 68 ∧
      ∀ j, j < 68 → buildByteEncoder.lookup (unmappedBytes.getD j 0) = some (256 + j) := by
  simp only [buildByteEncoder_eq_lit]
  decide

set_option maxRecDepth 40000 in
theorem byteDecoder_inverts_encodeByte :
    ∀ b, b < 256 → buildByteDecoder.lookup (encodeByte b) = some b := by
  simp only [buildByteDecoder, encodeByte, buildByteEncoder_eq_lit]
  decide

/-- Claim C4 — byte alphabet.  Exactly the printable bytes map to their own
codepoint; the remaining 68 bytes map, in ascending byte order, to the
consecutive codepoints `256, 257, ...`; the map is injective on bytes
(distinct codepoints); and decoding inverts encoding on every byte sequence
(i.e. on the UTF-8 bytes of every string). -/
theorem byte_alphabet_spec :
    (∀ b, b < 256 → isPrintableByte b = true → buildByteEncoder.lookup b = some b) ∧
    unmappedBytes.length = 68 ∧
    (∀ j, j < 68 → buildByteEncoder.lookup (unmappedBytes.getD j 0) = some (256 + j)) ∧
    (∀ b1 b2, b1 < 256 → b2 < 256 → encodeByte b1 = encodeByte b2 → b1 = b2) ∧
    (∀ bytes : List Nat, (∀ b ∈ bytes, b < 256) → decodeBytes (encodeBytes bytes) = bytes) := by
  refine ⟨printable_self_lookup, unmapped_lookup.1, unmapped_lookup.2, ?_, ?_⟩
  · intro b1 b2 h1 h2 heq
    have e1 := byteDecoder_inverts_encodeByte b1 h1
    have e2 := byteDecoder_inverts_encodeByte b2 h2
    rw [heq, e2] at e1
    exact (Option.some_injective _ e1).symm
  · intro bytes hlt
    induction bytes with
    | nil => rfl
    | cons b tl ih =>
      have hb : b < 256 := hlt b (by simp)
      have htl := ih (fun x hx => hlt x (by simp [hx]))
      show List.filterMap _ (encodeByte b :: encodeBytes tl) = b :: tl
      rw [List.filterMap_cons]
      rw [byteDecoder_inverts_encodeByte b hb]
      rw [show List.filterMap (fun c => buildByteDecoder.lookup c) (encodeBytes tl) =
        decodeBytes (encodeBytes tl) from rfl, htl]

/-- Witness for C4: the byte sequence `[72, 233, 10]` (the UTF-8 bytes of a
small mixed string) round-trips through the byte alphabet. -/
theorem byte_alphabet_spec_witness :
    (∀ b ∈ [72, 233, 10], b < 256) ∧
      decodeBytes (encodeBytes [72, 233, 10]) = [72, 233, 10] :=
  ⟨by decide, byte_alphabet_spec.2.2.2.2 [72, 233, 10] (by decide)⟩

/-! ### Container format (src/format/header.ts, src/format/chunked-header.ts)

Throw sites become an error type with one constructor per distinct `throw`
(plus `rangeError` for the implicit `RangeError` a `DataView` read past the
end of the buffer raises). -/

/-- Error values for the format parsers and the decompression entry. -/
inductive FormatError where
  | invalidHeader
  | invalidMagic
  | unsupportedVersion (v : Nat)
  | invalidChunkedHeader
  | invalidChunkedMagic
  | unsupportedChunkedVersion (v : Nat)
  | rangeError
  | notChunkedFormat
  deriving Repr, DecidableEq

/-- Little-endian bytes of `setUint16` (the `DataView` write takes the value
mod `2^16`, which these two bytes are). -/
def le16 (v : Nat) : List Nat := [v % 256, v / 256 % 256]

/-- Little-endian bytes of `setUint32` (value taken mod `2^32`). -/
def le32 (v : Nat) : List Nat :=
  [v % 256, v / 256 % 256, v / 2 ^ 16 % 256, v / 2 ^ 24 % 256]

/-- A `getUint16(off, true)` read on a byte list (bounds handled by callers). -/
def u16le (data : List Nat) (off : Nat) : Nat :=
  data.getD off 0 + 256 * data.getD (off + 1) 0

/-- A `getUint32(off, true)` read on a byte list (bounds handled by callers). -/
def u32le (data : List Nat) (off : Nat) : Nat :=
  data.getD off 0 + 256 * data.getD (off + 1) 0 +
    2 ^ 16 * data.getD (off + 2) 0 + 2 ^ 24 * data.getD (off + 3) 0

/-- Magic bytes `"LLMC"` of the plain container. -/
def MAGIC_BYTES : List Nat := [0x4c, 0x4c, 0x4d, 0x43]

/-- Plain container format version. -/
def FORMAT_VERSION : Nat := 1

/-- Plain header size in bytes. -/
def HEADER_SIZE : Nat := 25

/-- Embeds the `CompressedHeader` interface. -/
structure CompressedHeader where
  magic : List Nat
  version : Nat
  originalLength : Nat
  tokenCount : Nat
  modelHash : Nat
  reserved : List Nat
  deriving Repr, DecidableEq

/-- Embeds `createHeader`. -/
def createHeader (originalLength tokenCount modelHash : Nat) : CompressedHeader :=
  ⟨MAGIC_BYTES, FORMAT_VERSION, originalLength, tokenCount, modelHash, List.replicate 8 0⟩

/-- Embeds `serializeHeader`: writes magic, version byte, three little-endian
32-bit fields and the 8 reserved bytes into the 25-byte buffer.  The
concatenation is the buffer layout when `magic` has 4 bytes and `reserved`
8 bytes, which every header built by `createHeader` has. -/
def serializeHeader (h : CompressedHeader) : List Nat :=
  h.magic ++ [h.version % 256] ++ le32 h.originalLength ++ le32 h.tokenCount ++
    le32 h.modelHash ++ h.reserved

/-- Embeds `deserializeHeader` with its three throw sites; the field reads all
lie inside the 25-byte `DataView`, so they cannot range-error. -/
def deserializeHeader (data : List Nat) : Except FormatError CompressedHeader :=
  if data.length < HEADER_SIZE then
    .error .invalidHeader
  else
    let magic := data.take 4
    if magic.getD 0 0 != 0x4c || magic.getD 1 0 != 0x4c ||
        magic.getD 2 0 != 0x4d || magic.getD 3 0 != 0x43 then
      .error .invalidMagic
    else
      let version := data.getD 4 0
      if FORMAT_VERSION < version then
        .error (.unsupportedVersion version)
      else
        .ok ⟨magic, version, u32le data 5, u32le data 9, u32le data 13,
          (data.drop 17).take 8⟩

/-- Magic bytes `"LLMP"` of the chunked container. -/
def CHUNKED_MAGIC_BYTES : List Nat := [0x4c, 0x4c, 0x4d, 0x50]

/-- Chunked container format version. -/
def CHUNKED_FORMAT_VERSION : Nat := 1

/-- Fixed chunked-header size before the chunk tables. -/
def CHUNKED_HEADER_BASE_SIZE : Nat := 25

/-- Embeds the `ChunkedHeader` interface. -/
structure ChunkedHeader where
  magic : List Nat
  version : Nat
  originalLength : Nat
  totalTokenCount : Nat
  modelHash : Nat
  chunkCount : Nat
  chunkSize : Nat
  overlapSize : Nat
  chunkOffsets : List Nat
  chunkTokenCounts : List Nat
  deriving Repr, DecidableEq

/-- Embeds `calculateChunkedHeaderSize`. -/
def calculateChunkedHeaderSize (chunkCount : Nat) : Nat :=
  CHUNKED_HEADER_BASE_SIZE + chunkCount * 4 + chunkCount * 2

/-- Embeds `createChunkedHeader` (`chunkCount` is the length of the offsets
array). -/
def createChunkedHeader (originalLength totalTokenCount modelHash chunkSize overlapSize : Nat)
    (chunkOffsets chunkTokenCounts : List Nat) : ChunkedHeader :=
  ⟨CHUNKED_MAGIC_BYTES, CHUNKED_FORMAT_VERSION, originalLength, totalTokenCount, modelHash,
    chunkOffsets.length, chunkSize, overlapSize, chunkOffsets, chunkTokenCounts⟩

/-- Embeds `serializeChunkedHeader`: the fixed fields followed by the two
sequentially written chunk tables (the source writes each array element at
the running offset, which is this concatenation; the buffer size matches when
both arrays have `chunkCount` entries). -/
def serializeChunkedHeader (h : ChunkedHeader) : List Nat :=
  h.magic ++ [h.version % 256] ++ le32 h.originalLength ++ le32 h.totalTokenCount ++
    le32 h.modelHash ++ le16 h.chunkCount ++ le16 h.chunkSize ++ le16 h.overlapSize ++
    le16 0 ++ h.chunkOffsets.flatMap le32 ++ h.chunkTokenCounts.flatMap le16

/-- Embeds `deserializeChunkedHeader`.  The chunk-table reads run past the
base header; the furthest byte touched is `25 + 6*chunkCount`, so the source
raises `RangeError` exactly when the buffer is shorter than that (checked
up-front here in place of the per-read throw). -/
def deserializeChunkedHeader (data : List Nat) : Except FormatError ChunkedHeader :=
  if data.length < CHUNKED_HEADER_BASE_SIZE then
    .error .invalidChunkedHeader
  else
    let magic := data.take 4
    if magic.getD 0 0 != 0x4c || magic.getD 1 0 != 0x4c ||
        magic.getD 2 0 != 0x4d || magic.getD 3 0 != 0x50 then
      .error .invalidChunkedMagic
    else
      let version := data.getD 4 0
      if CHUNKED_FORMAT_VERSION < version then
        .error (.unsupportedChunkedVersion version)
      else
        let chunkCount := u16le data 17
        if data.length < 25 + 4 * chunkCount + 2 * chunkCount then
          .error .rangeError
        else
          .ok ⟨magic, version, u32le data 5, u32le data 9, u32le data 13,
            chunkCount, u16le data 19, u16le data 21,
            (List.range chunkCount).map (fun i => u32le data (25 + 4 * i)),
            (List.range chunkCount).map (fun i => u16le data (25 + 4 * chunkCount + 2 * i))⟩

/-- Embeds `isChunkedFormat`. -/
def isChunkedFormat (data : List Nat) : Bool :=
  if data.length < 4 then false
  else
    data.getD 0 0 == 0x4c && data.getD 1 0 == 0x4c &&
      data.getD 2 0 == 0x4d && data.getD 3 0 == 0x50

theorem getD_append_right_at (xs ys : List Nat) (i : Nat) :
    (xs ++ ys).getD (xs.length + i) 0 = ys.getD i 0 := by
  rw [List.getD_append_right _ _ _ _ (by omega)]
  congr 1
  omega

theorem u32le_shift (xs ys : List Nat) (i : Nat) :
    u32le (xs ++ ys) (xs.length + i) = u32le ys i := by
  unfold u32le
  rw [show xs.length + i + 1 = xs.length + (i + 1) by omega,
    show xs.length + i + 2 = xs.length + (i + 2) by omega,
    show xs.length + i + 3 = xs.length + (i + 3) by omega,
    getD_append_right_at, getD_append_right_at, getD_append_right_at, getD_append_right_at]

theorem u16le_shift (xs ys : List Nat) (i : Nat) :
    u16le (xs ++ ys) (xs.length + i) = u16le ys i := by
  unfold u16le
  rw [show xs.length + i + 1 = xs.length + (i + 1) by omega,
    getD_append_right_at, getD_append_right_at]

theorem u32le_prefix (xs ys : List Nat) (i : Nat) (h : i + 4 ≤ xs.length) :
    u32le (xs ++ ys) i = u32le xs i := by
  unfold u32le
  rw [List.getD_append _ _ _ _ (by omega), List.getD_append _ _ _ _ (by omega),
    List.getD_append _ _ _ _ (by omega), List.getD_append _ _ _ _ (by omega)]

theorem u16le_prefix (xs ys : List Nat) (i : Nat) (h : i + 2 ≤ xs.length) :
    u16le (xs ++ ys) i = u16le xs i := by
  unfold u16le
  rw [List.getD_append _ _ _ _ (by omega), List.getD_append _ _ _ _ (by omega)]

theorem u32le_le32 (v : Nat) (rest : List Nat) (hv : v < 2 ^ 32) :
    u32le (le32 v ++ rest) 0 = v := by
  simp only [le32, u32le, List.cons_append, List.getD_cons_zero, List.getD_cons_succ]
  omega

theorem u16le_le16 (v : Nat) (rest : List Nat) (hv : v < 2 ^ 16) :
    u16le (le16 v ++ rest) 0 = v := by
  simp only [le16, u16le, List.cons_append, List.getD_cons_zero, List.getD_cons_succ]
  omega

theorem flatMap_le32_length (l : List Nat) : (l.flatMap le32).length = 4 * l.length := by
  induction l with
  | nil => rfl
  | cons x l ih => simp [le32, ih]; ring

theorem flatMap_le16_length (l : List Nat) : (l.flatMap le16).length = 2 * l.length := by
  induction l with
  | nil => rfl
  | cons x l ih => simp [le16, ih]; ring

theorem flatMap_le32_read (l : List Nat) (post : List Nat) (i : Nat)
    (hi : i < l.length) (hb : ∀ x ∈ l, x < 2 ^ 32) :
    u32le (l.flatMap le32 ++ post) (4 * i) = l.getD i 0 := by
  induction l generalizing i post with
  | nil => exact absurd hi (by simp)
  | cons x l ih =>
    rcases Nat.eq_zero_or_pos i with h0 | h0
    · subst h0
      show u32le (le32 x ++ (l.flatMap le32 ++ post)) 0 = x
      exact u32le_le32 x _ (hb x (by simp))
    · obtain ⟨i', rfl⟩ : ∃ i', i = i' + 1 := ⟨i - 1, by omega⟩
      rw [List.flatMap_cons, List.append_assoc]
      have h4 : 4 * (i' + 1) = (le32 x).length + 4 * i' := by simp [le32]; ring
      rw [h4, u32le_shift]
      rw [ih _ _ (by simpa using hi) (fun y hy => hb y (by simp [hy]))]
      simp

theorem flatMap_le16_read (l : List Nat) (post : List Nat) (i : Nat)
    (hi : i < l.length) (hb : ∀ x ∈ l, x < 2 ^ 16) :
    u16le (l.flatMap le16 ++ post) (2 * i) = l.getD i 0 := by
  induction l generalizing i post with
  | nil => exact absurd hi (by simp)
  | cons x l ih =>
    rcases Nat.eq_zero_or_pos i with h0 | h0
    · subst h0
      show u16le (le16 x ++ (l.flatMap le16 ++ post)) 0 = x
      exact u16le_le16 x _ (hb x (by simp))
    · obtain ⟨i', rfl⟩ : ∃ i', i = i' + 1 := ⟨i - 1, by omega⟩
      rw [List.flatMap_cons, List.append_assoc]
      have h2 : 2 * (i' + 1) = (le16 x).length + 2 * i' := by simp [le16]; ring
      rw [h2, u16le_shift]
      rw [ih _ _ (by simpa using hi) (fun y hy => hb y (by simp [hy]))]
      simp

/-- The 25 fixed bytes of a serialized chunked header (fields in layout
order), used to factor the round-trip proof. -/
def chunkedFixedBytes (ver a b c K cs ov : Nat) : List Nat :=
  CHUNKED_MAGIC_BYTES ++ [ver % 256] ++ le32 a ++ le32 b ++ le32 c ++
    le16 K ++ le16 cs ++ le16 ov ++ le16 0

theorem chunkedFixedBytes_length (ver a b c K cs ov : Nat) :
    (chunkedFixedBytes ver a b c K cs ov).length = 25 := rfl

theorem serializeChunkedHeader_decomp (h : ChunkedHeader)
    (hm : h.magic = CHUNKED_MAGIC_BYTES) :
    serializeChunkedHeader h =
      chunkedFixedBytes h.version h.originalLength h.totalTokenCount h.modelHash
          h.chunkCount h.chunkSize h.overlapSize ++
        (h.chunkOffsets.flatMap le32 ++ h.chunkTokenCounts.flatMap le16) := by
  simp [serializeChunkedHeader, chunkedFixedBytes, hm, List.append_assoc]

theorem chunkedFixed_read_a (ver a b c K cs ov : Nat) (post : List Nat) (ha : a < 2 ^ 32) :
    u32le (chunkedFixedBytes ver a b c K cs ov ++ post) 5 = a := by
  show a % 256 + 256 * (a / 256 % 256) + 2 ^ 16 * (a / 2 ^ 16 % 256) +
    2 ^ 24 * (a / 2 ^ 24 % 256) = a
  omega

theorem chunkedFixed_read_b (ver a b c K cs ov : Nat) (post : List Nat) (hb : b < 2 ^ 32) :
    u32le (chunkedFixedBytes ver a b c K cs ov ++ post) 9 = b := by
  show b % 256 + 256 * (b / 256 % 256) + 2 ^ 16 * (b / 2 ^ 16 % 256) +
    2 ^ 24 * (b / 2 ^ 24 % 256) = b
  omega

theorem chunkedFixed_read_c (ver a b c K cs ov : Nat) (post : List Nat) (hc : c < 2 ^ 32) :
    u32le (chunkedFixedBytes ver a b c K cs ov ++ post) 13 = c := by
  show c % 256 + 256 * (c / 256 % 256) + 2 ^ 16 * (c / 2 ^ 16 % 256) +
    2 ^ 24 * (c / 2 ^ 24 % 256) = c
  omega

theorem chunkedFixed_read_K (ver a b c K cs ov : Nat) (post : List Nat) (hK : K < 2 ^ 16) :
    u16le (chunkedFixedBytes ver a b c K cs ov ++ post) 17 = K := by
  show K % 256 + 256 * (K / 256 % 256) = K
  omega

theorem chunkedFixed_read_cs (ver a b c K cs ov : Nat) (post : List Nat) (hcs : cs < 2 ^ 16) :
    u16le (chunkedFixedBytes ver a b c K cs ov ++ post) 19 = cs := by
  show cs % 256 + 256 * (cs / 256 % 256) = cs
  omega

theorem chunkedFixed_read_ov (ver a b c K cs ov : Nat) (post : List Nat) (hov : ov < 2 ^ 16) :
    u16le (chunkedFixedBytes ver a b c K cs ov ++ post) 21 = ov := by
  show ov % 256 + 256 * (ov / 256 % 256) = ov
  omega

theorem serializeChunkedHeader_length (h : ChunkedHeader)
    (hm : h.magic = CHUNKED_MAGIC_BYTES)
    (hoffs : h.chunkOffsets.length = h.chunkCount)
    (hcnts : h.chunkTokenCounts.length = h.chunkCount) :
    (serializeChunkedHeader h).length = 25 + 6 * h.chunkCount := by
  rw [serializeChunkedHeader_decomp h hm]
  rw [List.length_append, List.length_append, chunkedFixedBytes_length,
    flatMap_le32_length, flatMap_le16_length, hoffs, hcnts]
  ring

/-- Claim C6 — chunked header round trip.  For a chunked header whose fields
fit their encoded widths, whose table arrays both have `chunkCount` entries
and whose magic and version are valid, serialize-then-deserialize returns the
header with every field intact, and the wire form is exactly
`25 + 6 * chunkCount` bytes. -/
theorem chunked_header_roundtrip (h : ChunkedHeader)
    (hm : h.magic = CHUNKED_MAGIC_BYTES)
    (hver : h.version ≤ CHUNKED_FORMAT_VERSION)
    (ha : h.originalLength < 2 ^ 32) (hb : h.totalTokenCount < 2 ^ 32)
    (hc : h.modelHash < 2 ^ 32) (hK : h.chunkCount < 2 ^ 16)
    (hcs : h.chunkSize < 2 ^ 16) (hov : h.overlapSize < 2 ^ 16)
    (hoffs : h.chunkOffsets.length = h.chunkCount)
    (hcnts : h.chunkTokenCounts.length = h.chunkCount)
    (hoffb : ∀ x ∈ h.chunkOffsets, x < 2 ^ 32)
    (hcntb : ∀ x ∈ h.chunkTokenCounts, x < 2 ^ 16) :
    deserializeChunkedHeader (serializeChunkedHeader h) = .ok h ∧
      (serializeChunkedHeader h).length = 25 + 6 * h.chunkCount := by
  refine ⟨?_, serializeChunkedHeader_length h hm hoffs hcnts⟩
  obtain ⟨m, ver, a, b, c, K, cs, ov, offs, cnts⟩ := h
  simp only at hm hver ha hb hc hK hcs hov hoffs hcnts hoffb hcntb
  subst hm
  have hlen := serializeChunkedHeader_length
    ⟨CHUNKED_MAGIC_BYTES, ver, a, b, c, K, cs, ov, offs, cnts⟩ rfl hoffs hcnts
  have hdec := serializeChunkedHeader_decomp
    ⟨CHUNKED_MAGIC_BYTES, ver, a, b, c, K, cs, ov, offs, cnts⟩ rfl
  simp only at hdec hlen
  unfold deserializeChunkedHeader
  rw [if_neg (by rw [hlen]; simp [CHUNKED_HEADER_BASE_SIZE])]
  have hmagic4 : (serializeChunkedHeader
      ⟨CHUNKED_MAGIC_BYTES, ver, a, b, c, K, cs, ov, offs, cnts⟩).take 4 =
      CHUNKED_MAGIC_BYTES := by
    rw [hdec]
    rfl
  simp only [hmagic4]
  rw [if_neg (by decide)]
  have hgd4 : (serializeChunkedHeader
      ⟨CHUNKED_MAGIC_BYTES, ver, a, b, c, K, cs, ov, offs, cnts⟩).getD 4 0 = ver := by
    rw [hdec]
    show ver % 256 = ver
    have : CHUNKED_FORMAT_VERSION = 1 := rfl
    omega
  simp only [hgd4]
  rw [if_neg (by simp [CHUNKED_FORMAT_VERSION] at hver ⊢; omega)]
  have hrdK : u16le (serializeChunkedHeader
      ⟨CHUNKED_MAGIC_BYTES, ver, a, b, c, K, cs, ov, offs, cnts⟩) 17 = K := by
    rw [hdec]
    exact chunkedFixed_read_K ver a b c K cs ov _ hK
  simp only [hrdK]
  rw [if_neg (by rw [hlen]; omega)]
  have hrda : u32le (serializeChunkedHeader
      ⟨CHUNKED_MAGIC_BYTES, ver, a, b, c, K, cs, ov, offs, cnts⟩) 5 = a := by
    rw [hdec]; exact chunkedFixed_read_a ver a b c K cs ov _ ha
  have hrdb : u32le (serializeChunkedHeader
      ⟨CHUNKED_MAGIC_BYTES, ver, a, b, c, K, cs, ov, offs, cnts⟩) 9 = b := by
    rw [hdec]; exact chunkedFixed_read_b ver a b c K cs ov _ hb
  have hrdc : u32le (serializeChunkedHeader
      ⟨CHUNKED_MAGIC_BYTES, ver, a, b, c, K, cs, ov, offs, cnts⟩) 13 = c := by
    rw [hdec]; exact chunkedFixed_read_c ver a b c K cs ov _ hc
  have hrdcs : u16le (serializeChunkedHeader
      ⟨CHUNKED_MAGIC_BYTES, ver, a, b, c, K, cs, ov, offs, cnts⟩) 19 = cs := by
    rw [hdec]; exact chunkedFixed_read_cs ver a b c K cs ov _ hcs
  have hrdov : u16le (serializeChunkedHeader
      ⟨CHUNKED_MAGIC_BYTES, ver, a, b, c, K, cs, ov, offs, cnts⟩) 21 = ov := by
    rw [hdec]; exact chunkedFixed_read_ov ver a b c K cs ov _ hov
  have hrdoffs : ∀ i, i < K → u32le (serializeChunkedHeader
      ⟨CHUNKED_MAGIC_BYTES, ver, a, b, c, K, cs, ov, offs, cnts⟩) (25 + 4 * i) =
      offs.getD i 0 := by
    intro i hi
    rw [hdec]
    rw [show 25 + 4 * i =
      (chunkedFixedBytes ver a b c K cs ov).length + 4 * i from by
        rw [chunkedFixedBytes_length]]
    rw [u32le_shift]
    exact flatMap_le32_read offs _ i (by omega) hoffb
  have hrdcnts : ∀ i, i < K → u16le (serializeChunkedHeader
      ⟨CHUNKED_MAGIC_BYTES, ver, a, b, c, K, cs, ov, offs, cnts⟩)
        (25 + 4 * K + 2 * i) = cnts.getD i 0 := by
    intro i hi
    rw [hdec]
    rw [show 25 + 4 * K + 2 * i =
      (chunkedFixedBytes ver a b c K cs ov).length + (4 * K + 2 * i) from by
        rw [chunkedFixedBytes_length]; ring]
    rw [u16le_shift]
    rw [show 4 * K + 2 * i = (offs.flatMap le32).length + 2 * i from by
      rw [flatMap_le32_length, hoffs]]
    rw [u16le_shift]
    rw [← List.append_nil (cnts.flatMap le16)]
    exact flatMap_le16_read cnts [] i (by omega) hcntb
  have htab1 : (List.range K).map (fun i => u32le (serializeChunkedHeader
      ⟨CHUNKED_MAGIC_BYTES, ver, a, b, c, K, cs, ov, offs, cnts⟩) (25 + 4 * i)) =
      offs := by
    rw [List.map_congr_left (fun i hi => hrdoffs i (by simpa using hi))]
    have hmr := map_range_getD offs 0
    rw [Nat.add_zero, hoffs] at hmr
    simpa using hmr
  have htab2 : (List.range K).map (fun i => u16le (serializeChunkedHeader
      ⟨CHUNKED_MAGIC_BYTES, ver, a, b, c, K, cs, ov, offs, cnts⟩)
        (25 + 4 * K + 2 * i)) = cnts := by
    rw [List.map_congr_left (fun i hi => hrdcnts i (by simpa using hi))]
    have hmr := map_range_getD cnts 0
    rw [Nat.add_zero, hcnts] at hmr
    simpa using hmr
  simp only [hrda, hrdb, hrdc, hrdcs, hrdov, htab1, htab2]

/-- Witness for C6 at the spec's seed scenario
(`createChunkedHeader(1000, 84, 0x12345678, 64, 8, [25,100,175], [30,35,35])`,
`chunkCount = 3`). -/
theorem chunked_header_roundtrip_witness :
    deserializeChunkedHeader (serializeChunkedHeader
        (createChunkedHeader 1000 84 0x12345678 64 8 [25, 100, 175] [30, 35, 35])) =
      .ok (createChunkedHeader 1000 84 0x12345678 64 8 [25, 100, 175] [30, 35, 35]) ∧
    (serializeChunkedHeader
        (createChunkedHeader 1000 84 0x12345678 64 8 [25, 100, 175] [30, 35, 35])).length =
      25 + 6 * (createChunkedHeader 1000 84 0x12345678 64 8 [25, 100, 175] [30, 35, 35]).chunkCount :=
  chunked_header_roundtrip
    (createChunkedHeader 1000 84 0x12345678 64 8 [25, 100, 175] [30, 35, 35])
    rfl (by decide) (by decide) (by decide) (by decide) (by decide) (by decide)
    (by decide) rfl rfl (by decide) (by decide)

theorem getD_take_lt (l : List Nat) (n i : Nat) (h : i < n) :
    (l.take n).getD i 0 = l.getD i 0 := by
  rw [List.getD_eq_getElem?_getD, List.getD_eq_getElem?_getD,
    List.getElem?_take_of_lt h]

/-- Claim C8 — version gating.  On any buffer of at least 25 bytes carrying
the proper magic, both parsers throw exactly when the version byte exceeds 1:
the plain parser rejects with its version error and otherwise succeeds; the
chunked parser rejects with its version error and otherwise never fails the
version check (any residual failure is a chunk-table range error, not a
version rejection). -/
theorem version_rejection (data : List Nat) (hlen : 25 ≤ data.length)
    (h0 : data.getD 0 0 = 0x4c) (h1 : data.getD 1 0 = 0x4c)
    (h2 : data.getD 2 0 = 0x4d) :
    (data.getD 3 0 = 0x43 →
      ((FORMAT_VERSION < data.getD 4 0 →
        deserializeHeader data = .error (.unsupportedVersion (data.getD 4 0))) ∧
       (data.getD 4 0 ≤ FORMAT_VERSION → ∃ h, deserializeHeader data = .ok h))) ∧
    (data.getD 3 0 = 0x50 →
      ((CHUNKED_FORMAT_VERSION < data.getD 4 0 →
        deserializeChunkedHeader data =
          .error (.unsupportedChunkedVersion (data.getD 4 0))) ∧
       (data.getD 4 0 ≤ CHUNKED_FORMAT_VERSION →
        ∀ v, deserializeChunkedHeader data ≠ .error (.unsupportedChunkedVersion v)))) := by
  have ht0 : (data.take 4).getD 0 0 = data.getD 0 0 := getD_take_lt _ _ _ (by norm_num)
  have ht1 : (data.take 4).getD 1 0 = data.getD 1 0 := getD_take_lt _ _ _ (by norm_num)
  have ht2 : (data.take 4).getD 2 0 = data.getD 2 0 := getD_take_lt _ _ _ (by norm_num)
  have ht3 : (data.take 4).getD 3 0 = data.getD 3 0 := getD_take_lt _ _ _ (by norm_num)
  constructor
  · intro h3
    unfold deserializeHeader
    rw [if_neg (by simp [HEADER_SIZE]; omega)]
    rw [if_neg (by simp [ht0, ht1, ht2, ht3, ← List.getD_eq_getElem?_getD, h0, h1, h2, h3])]
    constructor
    · intro hv
      rw [if_pos hv]
    · intro hv
      rw [if_neg (by omega)]
      exact ⟨_, rfl⟩
  · intro h3
    unfold deserializeChunkedHeader
    rw [if_neg (by simp [CHUNKED_HEADER_BASE_SIZE]; omega)]
    rw [if_neg (by simp [ht0, ht1, ht2, ht3, ← List.getD_eq_getElem?_getD, h0, h1, h2, h3])]
    constructor
    · intro hv
      rw [if_pos hv]
    · intro hv v
      rw [if_neg (by omega)]
      by_cases hrange : data.length < 25 + 4 * u16le data 17 + 2 * u16le data 17
      · rw [if_pos hrange]
        simp
      · rw [if_neg hrange]
        simp

/-- Witness for C8: a 25-byte buffer with plain magic and version byte 2 is
rejected by `deserializeHeader` with the version error, and one with chunked
magic and version byte 1 is not version-rejected by
`deserializeChunkedHeader`. -/
theorem version_rejection_witness :
    deserializeHeader ([0x4c, 0x4c, 0x4d, 0x43, 2] ++ List.replicate 20 0) =
      .error (.unsupportedVersion 2) ∧
    ∀ v, deserializeChunkedHeader ([0x4c, 0x4c, 0x4d, 0x50, 1] ++ List.replicate 20 0) ≠
      .error (.unsupportedChunkedVersion v) :=
  ⟨by
    have h := (version_rejection ([0x4c, 0x4c, 0x4d, 0x43, 2] ++ List.replicate 20 0)
      (by decide) (by decide) (by decide) (by decide)).1 (by decide)
    exact h.1 (by decide),
   by
    have h := (version_rejection ([0x4c, 0x4c, 0x4d, 0x50, 1] ++ List.replicate 20 0)
      (by decide) (by decide) (by decide) (by decide)).2 (by decide)
    exact h.2 (by decide)⟩

/-! ### Chunking (src/format/chunked-header.ts `splitIntoChunks`) and the
merge step of `ChunkedCompressor.decompressChunksSequential` /
`decompressChunksParallel` (src/chunked-compressor.ts). -/

/-- One chunk as produced by `splitIntoChunks`. -/
structure ChunkInfo where
  tokens : List Nat
  outputStart : Nat
  outputCount : Nat
  deriving Repr, DecidableEq

/-- The `while (outputPosition < tokens.length)` loop of `splitIntoChunks`,
with explicit fuel (each iteration advances by `min chunkSize remaining`, so
`tokens.length + 1` iterations always suffice when `chunkSize ≥ 1`; with
`chunkSize = 0` the source loop never terminates).
`Math.max(0, outputPosition - overlapSize)` is natural subtraction, and
`tokens.slice(contextStart, chunkEnd)` is take-then-drop. -/
def splitIntoChunksGo (tokens : List Nat) (chunkSize overlapSize : Nat) :
    Nat → Nat → List ChunkInfo
  | _, 0 => []
  | outputPosition, fuel + 1 =>
    if outputPosition < tokens.length then
      let contextStart := if outputPosition = 0 then 0 else outputPosition - overlapSize
      let chunkEnd := min (outputPosition + chunkSize) tokens.length
      ⟨(tokens.take chunkEnd).drop contextStart, outputPosition,
        chunkEnd - outputPosition⟩ ::
        splitIntoChunksGo tokens chunkSize overlapSize chunkEnd fuel
    else []

/-- Embeds `splitIntoChunks`. -/
def splitIntoChunks (tokens : List Nat) (chunkSize overlapSize : Nat) : List ChunkInfo :=
  splitIntoChunksGo tokens chunkSize overlapSize 0 (tokens.length + 1)

/-- Embeds the merge loop of `decompressChunksSequential` (and identically
`decompressChunksParallel`): take chunk 0 whole and for each later chunk drop
its first `overlapSize` decoded tokens (`tokens.slice(skipCount)`). -/
def mergeChunks (chunkResults : List (List Nat)) (overlapSize : Nat) : List Nat :=
  (chunkResults.enum.map
    (fun p => if p.1 = 0 then p.2 else p.2.drop overlapSize)).flatten

theorem enumFrom_merge_drop (xs : List (List Nat)) (ov : Nat) :
    ∀ k, 1 ≤ k →
      ((List.enumFrom k xs).map
        (fun p => if p.1 = 0 then p.2 else p.2.drop ov)).flatten =
        (xs.map (fun t => t.drop ov)).flatten := by
  induction xs with
  | nil => intro k _; rfl
  | cons x xs ih =>
    intro k hk
    show ((if k = 0 then x else x.drop ov) ::
      (List.enumFrom (k + 1) xs).map _).flatten = _
    rw [if_neg (by omega)]
    simp only [List.flatten_cons, List.map_cons]
    rw [ih (k + 1) (by omega)]

theorem mergeChunks_cons (x : List Nat) (xs : List (List Nat)) (ov : Nat) :
    mergeChunks (x :: xs) ov = x ++ (xs.map (fun t => t.drop ov)).flatten := by
  unfold mergeChunks
  show ((if 0 = 0 then x else x.drop ov) ::
    (List.enumFrom 1 xs).map _).flatten = _
  rw [if_pos rfl]
  simp only [List.flatten_cons]
  rw [enumFrom_merge_drop xs ov 1 (by omega)]

theorem splitGo_merge_rest (tokens : List Nat) (cs ov : Nat)
    (hcs : 1 ≤ cs) :
    ∀ fuel pos, 1 ≤ pos → (ov ≤ pos ∨ tokens.length ≤ pos) →
      tokens.length ≤ pos + fuel →
      ((splitIntoChunksGo tokens cs ov pos fuel).map
        (fun c => c.tokens.drop ov)).flatten = tokens.drop pos := by
  intro fuel
  induction fuel with
  | zero =>
    intro pos _ _ hfl
    rw [show splitIntoChunksGo tokens cs ov pos 0 = [] from rfl]
    rw [List.drop_eq_nil_of_le (by omega)]
    rfl
  | succ fuel ih =>
    intro pos hpos hdisj hfl
    by_cases hlt : pos < tokens.length
    · have hovp : ov ≤ pos := by
        rcases hdisj with h | h
        · exact h
        · omega
      have hstep : splitIntoChunksGo tokens cs ov pos (fuel + 1) =
          ⟨(tokens.take (min (pos + cs) tokens.length)).drop (pos - ov), pos,
            min (pos + cs) tokens.length - pos⟩ ::
          splitIntoChunksGo tokens cs ov (min (pos + cs) tokens.length) fuel := by
        conv_lhs => unfold splitIntoChunksGo
        rw [if_pos hlt, if_neg (show ¬ pos = 0 by omega)]
      rw [hstep]
      simp only [List.map_cons, List.flatten_cons]
      have he1 : pos + 1 ≤ min (pos + cs) tokens.length := by omega
      rw [ih (min (pos + cs) tokens.length) (by omega) (by left; omega) (by omega)]
      have hchunk : ((tokens.take (min (pos + cs) tokens.length)).drop (pos - ov)).drop ov =
          (tokens.drop pos).take (min (pos + cs) tokens.length - pos) := by
        rw [List.drop_drop, show pos - ov + ov = pos by omega, List.drop_take]
      rw [hchunk]
      rw [show tokens.drop (min (pos + cs) tokens.length) =
        (tokens.drop pos).drop (min (pos + cs) tokens.length - pos) from by
          rw [List.drop_drop]
          congr 1
          omega]
      exact List.take_append_drop _ _
    · have hstep : splitIntoChunksGo tokens cs ov pos (fuel + 1) = [] := by
        unfold splitIntoChunksGo
        rw [if_neg hlt]
      rw [hstep, List.drop_eq_nil_of_le (by omega)]
      rfl

/-- Counterexample to C2 as stated: with `chunkSize = 1` and
`overlapSize = 2 > chunkSize`, splitting `[1, 2]` and merging drops a token
that was never duplicated, so the merge does not reconstruct the input. -/
theorem split_merge_roundtrip_cex :
    mergeChunks ((splitIntoChunks [1, 2] 1 2).map ChunkInfo.tokens) 2 = [1] ∧
      mergeChunks ((splitIntoChunks [1, 2] 1 2).map ChunkInfo.tokens) 2 ≠ [1, 2] := by
  decide

/-- Claim C2, amended — split/merge reconstruction.  For `chunkSize ≥ 1` and
`overlapSize ≤ chunkSize` (the counterexample shows reconstruction fails when
the overlap exceeds the chunk size), splitting any token list with
`splitIntoChunks` and merging by keeping chunk 0 whole and dropping the first
`overlapSize` tokens of every later chunk yields exactly the original list. -/
theorem split_merge_roundtrip (tokens : List Nat) (chunkSize overlapSize : Nat)
    (hcs : 1 ≤ chunkSize) (hov : overlapSize ≤ chunkSize) :
    mergeChunks ((splitIntoChunks tokens chunkSize overlapSize).map ChunkInfo.tokens)
      overlapSize = tokens := by
  cases tokens with
  | nil => rfl
  | cons t ts =>
    have hlen : 1 ≤ (t :: ts).length := by simp
    have hstep : splitIntoChunks (t :: ts) chunkSize overlapSize =
        ⟨((t :: ts).take (min chunkSize (t :: ts).length)).drop 0, 0,
          min chunkSize (t :: ts).length - 0⟩ ::
        splitIntoChunksGo (t :: ts) chunkSize overlapSize
          (min chunkSize (t :: ts).length) (t :: ts).length := by
      show splitIntoChunksGo (t :: ts) chunkSize overlapSize 0 ((t :: ts).length + 1) = _
      conv_lhs => unfold splitIntoChunksGo
      rw [if_pos (show 0 < (t :: ts).length by omega), if_pos rfl]
      simp only [Nat.zero_add]
    rw [hstep]
    simp only [List.map_cons]
    rw [mergeChunks_cons]
    have hmap : ((splitIntoChunksGo (t :: ts) chunkSize overlapSize
        (min chunkSize (t :: ts).length) (t :: ts).length).map ChunkInfo.tokens).map
          (fun x => x.drop overlapSize) =
        (splitIntoChunksGo (t :: ts) chunkSize overlapSize
          (min chunkSize (t :: ts).length) (t :: ts).length).map
            (fun c => c.tokens.drop overlapSize) := by
      rw [List.map_map]
      rfl
    rw [hmap]
    rw [splitGo_merge_rest (t :: ts) chunkSize overlapSize hcs
      (t :: ts).length (min chunkSize (t :: ts).length) (by omega)
      (by omega) (by omega)]
    rw [List.drop_zero]
    exact List.take_append_drop _ _

/-- Witness for C2 (amended) at the spec's seed scenario: `tokens = [1..15]`,
`chunkSize = 5`, `overlap = 2` reconstructs exactly. -/
theorem split_merge_roundtrip_witness :
    mergeChunks ((splitIntoChunks [1, 2, 3, 4, 5, 6, 7, 8, 9, 10, 11, 12, 13, 14, 15] 5 2).map
      ChunkInfo.tokens) 2 = [1, 2, 3, 4, 5, 6, 7, 8, 9, 10, 11, 12, 13, 14, 15] :=
  split_merge_roundtrip [1, 2, 3, 4, 5, 6, 7, 8, 9, 10, 11, 12, 13, 14, 15] 5 2
    (by decide) (by decide)

/-! ### Decompression entry of `ChunkedCompressor.decompress`
(src/chunked-compressor.ts) -/

/-- JS `Uint8Array.slice(start, end)`: both indices are clamped to the
buffer, an empty array results when `start ≥ end`. -/
def jsSlice (data : List Nat) (start stop : Nat) : List Nat :=
  (data.take stop).drop start

/-- The entry phase of `ChunkedCompressor.decompress` before any model or
coder work: the chunked-magic check, the header parse, and the extraction of
the chunk payload slices
(`data.slice(chunkOffsets[i], chunkOffsets[i+1] or data.length)`).  The
model-hash comparison only logs a console warning, and decoding the extracted
payloads afterwards is total (bit reads past the end of a payload return 0),
so this is the complete set of failure points of `decompress`. -/
def chunkedDecompressEntry (data : List Nat) :
    Except FormatError (ChunkedHeader × List (List Nat)) :=
  if !(isChunkedFormat data) then
    .error .notChunkedFormat
  else
    match deserializeChunkedHeader data with
    | .error e => .error e
    | .ok header =>
      .ok (header, (List.range header.chunkCount).map (fun i =>
        jsSlice data (header.chunkOffsets.getD i 0)
          (if i < header.chunkCount - 1 then header.chunkOffsets.getD (i + 1) 0
           else data.length)))

/-- A 31-byte chunked container whose single chunk offset (200) lies far
outside the container. -/
def chunkOffsetCexData : List Nat :=
  serializeChunkedHeader (createChunkedHeader 0 0 0 128 16 [200] [0])

/-- Counterexample to C7 as stated: on a container whose header parses but
whose chunk offset (200) lies outside the 31-byte container, the entry phase
of `ChunkedCompressor.decompress` succeeds (with an empty clamped payload)
instead of raising a format error. -/
theorem chunk_offset_no_bounds_check_cex :
    chunkedDecompressEntry chunkOffsetCexData =
      .ok (⟨[0x4c, 0x4c, 0x4d, 0x50], 1, 0, 0, 0, 1, 128, 16, [200], [0]⟩, [[]]) ∧
      chunkOffsetCexData.length = 31 ∧ 31 < 200 := by
  refine ⟨?_, ?_, by norm_num⟩
  all_goals rfl

theorem jsSlice_length_le (data : List Nat) (start stop : Nat) :
    (jsSlice data start stop).length ≤ data.length := by
  simp [jsSlice]

/-- Claim C7, amended — `ChunkedCompressor.decompress` performs no bounds
check on chunk offsets: whenever the header parses at all, the entry phase
succeeds, producing one payload per chunk, each silently clamped to the
container's byte range; an out-of-range offset yields an empty or truncated
payload rather than a format error. -/
theorem chunked_decompress_no_offset_validation (data : List Nat)
    (header : ChunkedHeader)
    (hok : deserializeChunkedHeader data = .ok header) :
    ∃ payloads, chunkedDecompressEntry data = .ok (header, payloads) ∧
      payloads.length = header.chunkCount ∧
      ∀ p ∈ payloads, p.length ≤ data.length := by
  have hchk : isChunkedFormat data = true := by
    unfold deserializeChunkedHeader at hok
    by_cases hl : data.length < CHUNKED_HEADER_BASE_SIZE
    · rw [if_pos hl] at hok
      exact absurd hok (by simp)
    · rw [if_neg hl] at hok
      by_cases hmg : ((data.take 4).getD 0 0 != 0x4c || (data.take 4).getD 1 0 != 0x4c ||
          (data.take 4).getD 2 0 != 0x4d || (data.take 4).getD 3 0 != 0x50) = true
      · rw [if_pos hmg] at hok
        exact absurd hok (by simp)
      · simp only [Bool.or_eq_true, bne_iff_ne, not_or] at hmg
        push_neg at hmg
        have hm0 : data.getD 0 0 = 0x4c := by
          rw [← getD_take_lt data 4 0 (by norm_num)]
          exact hmg.1.1.1
        have hm1 : data.getD 1 0 = 0x4c := by
          rw [← getD_take_lt data 4 1 (by norm_num)]
          exact hmg.1.1.2
        have hm2 : data.getD 2 0 = 0x4d := by
          rw [← getD_take_lt data 4 2 (by norm_num)]
          exact hmg.1.2
        have hm3 : data.getD 3 0 = 0x50 := by
          rw [← getD_take_lt data 4 3 (by norm_num)]
          exact hmg.2
        unfold isChunkedFormat
        rw [if_neg (by simp [CHUNKED_HEADER_BASE_SIZE] at hl; omega)]
        rw [hm0, hm1, hm2, hm3]
        rfl
  refine ⟨(List.range header.chunkCount).map (fun i =>
      jsSlice data (header.chunkOffsets.getD i 0)
        (if i < header.chunkCount - 1 then header.chunkOffsets.getD (i + 1) 0
         else data.length)), ?_, by simp, ?_⟩
  · unfold chunkedDecompressEntry
    rw [hchk, hok]
    rfl
  · intro p hp
    simp only [List.mem_map] at hp
    obtain ⟨i, -, rfl⟩ := hp
    exact jsSlice_length_le _ _ _

/-- Witness for the amended C7: a container with out-of-range chunk offset
300 parses, and the entry phase succeeds with one clamped payload. -/
theorem chunked_decompress_no_offset_validation_witness :
    deserializeChunkedHeader
        (serializeChunkedHeader (createChunkedHeader 0 0 0 128 16 [300] [0])) =
      .ok ⟨[0x4c, 0x4c, 0x4d, 0x50], 1, 0, 0, 0, 1, 128, 16, [300], [0]⟩ ∧
    ∃ payloads,
      chunkedDecompressEntry
          (serializeChunkedHeader (createChunkedHeader 0 0 0 128 16 [300] [0])) =
        .ok (⟨[0x4c, 0x4c, 0x4d, 0x50], 1, 0, 0, 0, 1, 128, 16, [300], [0]⟩, payloads) ∧
      payloads.length =
        (⟨[0x4c, 0x4c, 0x4d, 0x50], 1, 0, 0, 0, 1, 128, 16, [300], [0]⟩ :
          ChunkedHeader).chunkCount ∧
      ∀ p ∈ payloads, p.length ≤
        (serializeChunkedHeader (createChunkedHeader 0 0 0 128 16 [300] [0])).length :=
  ⟨by rfl, chunked_decompress_no_offset_validation _ _ (by rfl)⟩

/-! ### BPE tokenizer decode (src/tokenizer/bpe-tokenizer.ts) -/

/-- The tokenizer's throw site (`Tokenizer not loaded`). -/
inductive TokenizerError where
  | notLoaded
  deriving Repr, DecidableEq

/-- Embeds `BPETokenizer.decode` on a loaded tokenizer state: `vocabReverse`
maps token IDs to piece strings (piece strings as codepoint lists).  Throws
only when the map is empty; otherwise concatenates the pieces of the IDs that
have an entry (IDs with no entry are silently skipped) and maps the result
through `decodeBytes` (whose unknown codepoints are silently dropped).  The
final `TextDecoder` UTF-8 step never throws (invalid sequences become
U+FFFD), so the byte list fully determines the returned string. -/
def BPETokenizer.decode (vocabReverse : List (Nat × List Nat)) (ids : List Nat) :
    Except TokenizerError (List Nat) :=
  if vocabReverse.length = 0 then
    .error .notLoaded
  else
    .ok (decodeBytes ((ids.filterMap (fun id => vocabReverse.lookup id)).flatten))

theorem filterMap_filter_isSome {α β : Type} (f : α → Option β) (l : List α) :
    (l.filter (fun a => (f a).isSome)).filterMap f = l.filterMap f := by
  induction l with
  | nil => rfl
  | cons a l ih =>
    by_cases hfa : (f a).isSome
    · rw [List.filter_cons_of_pos (by simpa using hfa)]
      rw [List.filterMap_cons, List.filterMap_cons]
      cases hv : f a with
      | none => rw [hv] at hfa; simp at hfa
      | some b => simp [ih]
    · rw [List.filter_cons_of_neg (by simpa using hfa)]
      rw [List.filterMap_cons]
      cases hv : f a with
      | none => simp [ih]
      | some b => rw [hv] at hfa; simp at hfa

/-- Claim C9 — decode totality and skipping.  On a loaded tokenizer, `decode`
never throws; IDs without a vocabulary entry are silently skipped, so the
result equals decoding the recognized ID subsequence only; and `decodeBytes`
silently drops codepoints outside the byte-alphabet image, so its result
equals decoding the recognized codepoint subsequence only. -/
theorem bpe_decode_total_skip (vocabReverse : List (Nat × List Nat)) (ids : List Nat)
    (hload : vocabReverse ≠ []) :
    (∃ out, BPETokenizer.decode vocabReverse ids = .ok out) ∧
    BPETokenizer.decode vocabReverse ids =
      BPETokenizer.decode vocabReverse
        (ids.filter (fun id => (vocabReverse.lookup id).isSome)) ∧
    (∀ cps : List Nat, decodeBytes cps =
      decodeBytes (cps.filter (fun c => (buildByteDecoder.lookup c).isSome))) := by
  have hlen : ¬ vocabReverse.length = 0 := by
    simpa [List.length_eq_zero] using hload
  refine ⟨?_, ?_, ?_⟩
  · unfold BPETokenizer.decode
    rw [if_neg hlen]
    exact ⟨_, rfl⟩
  · unfold BPETokenizer.decode
    rw [if_neg hlen, if_neg hlen]
    rw [filterMap_filter_isSome]
  · intro cps
    unfold decodeBytes
    rw [filterMap_filter_isSome]

/-- Witness for C9: a two-entry vocabulary decoding IDs `[0, 5, 2]`
(ID 5 unknown). -/
theorem bpe_decode_total_skip_witness :
    ([(0, [72]), (2, [259])] : List (Nat × List Nat)) ≠ [] ∧
    (∃ out, BPETokenizer.decode [(0, [72]), (2, [259])] [0, 5, 2] = .ok out) ∧
    BPETokenizer.decode [(0, [72]), (2, [259])] [0, 5, 2] =
      BPETokenizer.decode [(0, [72]), (2, [259])]
        ([0, 5, 2].filter (fun id =>
          (([(0, [72]), (2, [259])] : List (Nat × List Nat)).lookup id).isSome)) :=
  ⟨by decide,
    (bpe_decode_total_skip [(0, [72]), (2, [259])] [0, 5, 2] (by decide)).1,
    (bpe_decode_total_skip [(0, [72]), (2, [259])] [0, 5, 2] (by decide)).2.1⟩

/-! ### Arithmetic coder (src/core/arithmetic-encoder.ts,
src/core/arithmetic-decoder.ts, and `findSymbol` / `getSymbolRange` from
src/core/cumulative-dist.ts)

JS numbers holding 32-bit state are kept `< 2^32` by the source's `>>> 0`
masks, written here as `% 2^32` at each store.  `ToUint32(x - 1)` is written
`(x + 2^32 - 1) % 2^32` to avoid natural-number truncation.  The `BigInt`
products and quotients are exact, so they are plain `Nat` arithmetic. -/

/-- Constant `HALF = 2^31`. -/
def HALF : Nat := 0x80000000

/-- Constant `QUARTER = 2^30`. -/
def QUARTER : Nat := 0x40000000

/-- Constant `THREE_QUARTERS = 3 * 2^30`. -/
def THREE_QUARTERS : Nat := 0xc0000000

/-- Constant `MASK = 2^32 - 1`. -/
def MASK : Nat := 0xffffffff

/-- Embeds `getSymbolRange`: `(low, high, total)` for a symbol
(out-of-range indices read 0, the JS `undefined` path being unreachable for
in-range symbols). -/
def getSymbolRange (cumulative : List Nat) (symbol : Nat) : Nat × Nat × Nat :=
  (cumulative.getD symbol 0, cumulative.getD (symbol + 1) 0,
    cumulative.getD (cumulative.length - 1) 0)

/-- Embeds `findSymbol`'s binary-search loop (`while (lo < hi)`) with fuel;
the bracket halves every iteration, so `cumulative.length` iterations always
suffice. -/
def findSymbolGo (cumulative : List Nat) (target : Nat) : Nat → Nat → Nat → Nat
  | lo, _, 0 => lo
  | lo, hi, fuel + 1 =>
    if lo < hi then
      let mid := (lo + hi + 1) / 2
      if cumulative.getD mid 0 ≤ target then
        findSymbolGo cumulative target mid hi fuel
      else
        findSymbolGo cumulative target lo (mid - 1) fuel
    else lo

/-- Embeds `findSymbol` (`hi` starts at `cumulative.length - 2`; for a table
shorter than 2 the JS loop guard is immediately false, as here by natural
truncation). -/
def findSymbol (cumulative : List Nat) (target : Nat) : Nat :=
  findSymbolGo cumulative target 0 (cumulative.length - 2) cumulative.length

/-- State of `ArithmeticEncoder` (fields kept `< 2^32` as by `>>> 0`). -/
structure ArithmeticEncoder where
  low : Nat
  high : Nat
  pendingBits : Nat
  output : BitOutputStream
  deriving Repr, DecidableEq

/-- A fresh encoder over a fresh bit stream: `low = 0`, `high = MASK`. -/
def ArithmeticEncoder.init : ArithmeticEncoder := ⟨0, MASK, 0, BitOutputStream.empty⟩

/-- Embeds `writeBitPlusPending`: write `bit`, then `pending` complement
bits. -/
def writeBitPlusPending (out : BitOutputStream) (bit : Nat) (pending : Nat) :
    BitOutputStream :=
  (List.range pending).foldl (fun o _ => o.writeBit (bit ^^^ 1)) (out.writeBit bit)

/-- The encoder's renormalization loop, with fuel.  Each iteration doubles
the interval width, and every case requires width `≤ 2^31`, so 40 units of
fuel are more than any reachable state can use (`encRenorm_complete` below
proves the loop exits within the fuel). -/
def encRenorm : Nat → ArithmeticEncoder → ArithmeticEncoder
  | 0, e => e
  | fuel + 1, e =>
    if e.high < HALF then
      encRenorm fuel ⟨e.low * 2 % 2 ^ 32, (e.high * 2 + 1) % 2 ^ 32, 0,
        writeBitPlusPending e.output 0 e.pendingBits⟩
    else if HALF ≤ e.low then
      encRenorm fuel ⟨(e.low - HALF) * 2 % 2 ^ 32, ((e.high - HALF) * 2 + 1) % 2 ^ 32, 0,
        writeBitPlusPending e.output 1 e.pendingBits⟩
    else if QUARTER ≤ e.low ∧ e.high < THREE_QUARTERS then
      encRenorm fuel ⟨(e.low - QUARTER) * 2 % 2 ^ 32, ((e.high - QUARTER) * 2 + 1) % 2 ^ 32,
        e.pendingBits + 1, e.output⟩
    else e

/-- Embeds `ArithmeticEncoder.encodeWithCumulative`: the `BigInt`-exact
interval update followed by renormalization.  `Number(range * symHigh /
total) - 1` then `>>> 0` is `(x + 2^32 - 1) % 2^32`. -/
def ArithmeticEncoder.encodeWithCumulative (e : ArithmeticEncoder)
    (symbol : Nat) (cumulative : List Nat) : ArithmeticEncoder :=
  let r := getSymbolRange cumulative symbol
  let range := e.high - e.low + 1
  let newLow := (e.low + range * r.1 / r.2.2) % 2 ^ 32
  let newHigh := (e.low + range * r.2.1 / r.2.2 + 2 ^ 32 - 1) % 2 ^ 32
  encRenorm 40 ⟨newLow, newHigh, e.pendingBits, e.output⟩

/-- Embeds `ArithmeticEncoder.finish`: increment the pending count, emit the
disambiguating bit with its complements, flush the bit stream. -/
def ArithmeticEncoder.finish (e : ArithmeticEncoder) : ArithmeticEncoder :=
  if e.low < QUARTER then
    ⟨e.low, e.high, 0, (writeBitPlusPending e.output 0 (e.pendingBits + 1)).flush⟩
  else
    ⟨e.low, e.high, 0, (writeBitPlusPending e.output 1 (e.pendingBits + 1)).flush⟩

/-- State of `ArithmeticDecoder`. -/
structure ArithmeticDecoder where
  low : Nat
  high : Nat
  code : Nat
  input : BitInputStream
  deriving Repr, DecidableEq

/-- Embeds the `ArithmeticDecoder` constructor: fill `code` with the first
32 bits (`code = ((code << 1) | readBit()) >>> 0` folded 32 times). -/
def ArithmeticDecoder.init (input : BitInputStream) : ArithmeticDecoder :=
  let r := input.readList 32
  ⟨0, MASK, r.1.foldl (fun c b => (2 * c + b) % 2 ^ 32) 0, r.2⟩

/-- The decoder's renormalization loop (decisions identical to the
encoder's); each iteration also shifts a fresh input bit into `code`.
`ToUint32(code - HALF)` is `(code + 2^32 - HALF) % 2^32`, and likewise for
`QUARTER`. -/
def decRenorm : Nat → ArithmeticDecoder → ArithmeticDecoder
  | 0, d => d
  | fuel + 1, d =>
    if d.high < HALF then
      decRenorm fuel ⟨d.low * 2 % 2 ^ 32, (d.high * 2 + 1) % 2 ^ 32,
        (d.code * 2 + (d.input.readBit).1) % 2 ^ 32, (d.input.readBit).2⟩
    else if HALF ≤ d.low then
      decRenorm fuel ⟨(d.low - HALF) * 2 % 2 ^ 32, ((d.high - HALF) * 2 + 1) % 2 ^ 32,
        ((d.code + 2 ^ 32 - HALF) % 2 ^ 32 * 2 + (d.input.readBit).1) % 2 ^ 32,
        (d.input.readBit).2⟩
    else if QUARTER ≤ d.low ∧ d.high < THREE_QUARTERS then
      decRenorm fuel ⟨(d.low - QUARTER) * 2 % 2 ^ 32, ((d.high - QUARTER) * 2 + 1) % 2 ^ 32,
        ((d.code + 2 ^ 32 - QUARTER) % 2 ^ 32 * 2 + (d.input.readBit).1) % 2 ^ 32,
        (d.input.readBit).2⟩
    else d

/-- Embeds `ArithmeticDecoder.decodeWithCumulative`: locate the symbol from
the scaled code value, update the interval exactly as the encoder, and
renormalize.  `(code >>> 0) - (low >>> 0)` and the `BigInt` quotient are
nonnegative in every reachable state, matching natural subtraction. -/
def ArithmeticDecoder.decodeWithCumulative (d : ArithmeticDecoder)
    (cumulative : List Nat) : Nat × ArithmeticDecoder :=
  let total := cumulative.getD (cumulative.length - 1) 0
  let range := d.high - d.low + 1
  let offset := d.code - d.low
  let scaled := ((offset + 1) * total - 1) / range
  let symbol := findSymbol cumulative scaled
  let r := getSymbolRange cumulative symbol
  let newLow := (d.low + range * r.1 / total) % 2 ^ 32
  let newHigh := (d.low + range * r.2.1 / total + 2 ^ 32 - 1) % 2 ^ 32
  (symbol, decRenorm 40 ⟨newLow, newHigh, d.code, d.input⟩)

/-- The encoder loop shared by `LLMCompressor.compress` and
`ChunkedCompressor.compressChunk`: encode each (symbol, table) pair in order
from a fresh encoder, `finish`, and take the produced bytes. -/
def encodeSequence (pairs : List (Nat × List Nat)) : List Nat :=
  ((pairs.foldl (fun e p => e.encodeWithCumulative p.1 p.2)
    ArithmeticEncoder.init).finish).output.toUint8Array

/-- The decoder loop shared by `LLMCompressor.decompress` and
`ChunkedCompressor.decompressChunkWithModel`: decode one symbol per table in
order. -/
def decodeSequenceGo (d : ArithmeticDecoder) : List (List Nat) → List Nat
  | [] => []
  | c :: rest =>
    let r := d.decodeWithCumulative c
    r.1 :: decodeSequenceGo r.2 rest

/-- Decode a symbol sequence from bytes, driven by a table per position. -/
def decodeSequence (bytes : List Nat) (tables : List (List Nat)) : List Nat :=
  decodeSequenceGo (ArithmeticDecoder.init (BitInputStream.mkStream bytes)) tables

/-! ### LLMCompressor.compress (src/compressor.ts) -/

/-- Embeds `combineHeaderAndPayload`. -/
def combineHeaderAndPayload (header payload : List Nat) : List Nat :=
  header ++ payload

/-- Embeds the `CompressionResult` interface (`compressionRatio` is a JS
float; the values produced here, 1 and size quotients, are exact, so it is
embedded as a rational). -/
structure CompressionResult where
  data : List Nat
  originalSize : Nat
  compressedSize : Nat
  compressionRatioQ : ℚ
  tokenCount : Nat
  deriving Repr, DecidableEq

/-- Embeds `LLMCompressor.compress` from the point where the text has been
tokenized: `tokens` is the tokenizer output, `originalSize` the UTF-8 byte
count of the input (0 for the empty string), and the model facade is
abstracted as the oracle `tables` giving, per position, the cumulative table
built from the model's probabilities (the model is reset before the loop, so
for a fixed input the table is a function of the position). -/
def LLMCompressor.compressTokens (modelHash originalSize : Nat) (tokens : List Nat)
    (tables : Nat → List Nat) : CompressionResult :=
  if tokens.length = 0 then
    { data := serializeHeader (createHeader 0 0 modelHash)
      originalSize := 0
      compressedSize := (serializeHeader (createHeader 0 0 modelHash)).length
      compressionRatioQ := 1
      tokenCount := 0 }
  else
    let headerBytes := serializeHeader (createHeader originalSize tokens.length modelHash)
    let payload := encodeSequence ((List.range tokens.length).map
      (fun i => (tokens.getD i 0, tables i)))
    let data := combineHeaderAndPayload headerBytes payload
    { data := data
      originalSize := originalSize
      compressedSize := data.length
      compressionRatioQ := (originalSize : ℚ) / (data.length : ℚ)
      tokenCount := tokens.length }

/-- Claim C10 — empty input.  When the input tokenizes to zero tokens (the
empty string, `originalSize = 0`), `compress` returns exactly the 25-byte
serialized plain header with `tokenCount = 0`, reports `originalSize = 0`,
`compressedSize = 25`, and `compressionRatio = 1` — the fixed literal 1, not
the `originalSize / compressedSize` quotient (which would be `0/25 = 0`)
used on the non-empty path. -/
theorem compress_empty_result (modelHash : Nat) (tables : Nat → List Nat) :
    (LLMCompressor.compressTokens modelHash 0 [] tables).data =
        serializeHeader (createHeader 0 0 modelHash) ∧
    (LLMCompressor.compressTokens modelHash 0 [] tables).data.length = 25 ∧
    (LLMCompressor.compressTokens modelHash 0 [] tables).originalSize = 0 ∧
    (LLMCompressor.compressTokens modelHash 0 [] tables).compressedSize = 25 ∧
    (LLMCompressor.compressTokens modelHash 0 [] tables).compressionRatioQ = 1 ∧
    ((0 : ℚ) / 25 = 0 ∧ (LLMCompressor.compressTokens modelHash 0 [] tables).compressionRatioQ ≠ (0 : ℚ) / 25) ∧
    (LLMCompressor.compressTokens modelHash 0 [] tables).tokenCount = 0 := by
  have hlen : (serializeHeader (createHeader 0 0 modelHash)).length = 25 := by
    simp [serializeHeader, createHeader, MAGIC_BYTES, le32]
  refine ⟨rfl, hlen, rfl, hlen, rfl, ⟨by norm_num, ?_⟩, rfl⟩
  show (1 : ℚ) ≠ 0 / 25
  norm_num

/-! ### Round-trip correctness of the arithmetic coder (claim C1)

Ghost quantities over the encoder state: `bitsVal E` is the integer value of
the emitted bit prefix `E`, `encShifts` the total number of renormalization
shifts (emitted bits plus pending bits), and `encO` the scaled value the
emitted-plus-pending bits commit the final stream to.  The invariant proved
below is that after each step the final stream value `x` satisfies
`low + encO ≤ x * 2^(encShifts + 32) < high + 1 + encO`, and that the decoder
register `code` equals the first `encShifts + 32` stream bits minus `encO`. -/

/-- Integer value of a bit list (MSB first). -/
def bitsVal (l : List Nat) : Nat := l.foldl (fun a b => 2 * a + b) 0

/-- Value of the first `m` bits of `F` (reading 0 past the end). -/
def Vbits (F : List Nat) : Nat → Nat
  | 0 => 0
  | m + 1 => 2 * Vbits F m + F.getD m 0

/-- Total shift count of an encoder state: every emitted bit and every
pending bit corresponds to exactly one doubling of the interval. -/
def encShifts (e : ArithmeticEncoder) : Nat :=
  e.output.outBits.length + e.pendingBits

/-- The commitment value of the bits emitted so far plus the pending-bit
block (the value, scaled by `2^(encShifts+32)`, below which no continuation
of the stream can fall). -/
def encOAux (E : List Nat) (p : Nat) : Nat :=
  2 ^ 31 * (bitsVal E * 2 ^ (p + 1) + 2 ^ p - 1)

/-- `encOAux` of an encoder state. -/
def encO (e : ArithmeticEncoder) : Nat := encOAux e.output.outBits e.pendingBits

/-- The renormalization-exit shape every encoder state has at step
boundaries. -/
def EncReady (e : ArithmeticEncoder) : Prop :=
  e.low < HALF ∧ HALF ≤ e.high ∧ e.high < 2 ^ 32 ∧
    ¬(QUARTER ≤ e.low ∧ e.high < THREE_QUARTERS)

/-- Validity of one (symbol, cumulative table) pair, per the claim: the
table starts at 0, increases strictly, its total is below `2^30`, and the
symbol is in range. -/
def ValidStep (p : Nat × List Nat) : Prop :=
  p.2.getD 0 0 = 0 ∧
  (∀ i, i + 1 < p.2.length → p.2.getD i 0 < p.2.getD (i + 1) 0) ∧
  p.2.getD (p.2.length - 1) 0 < 2 ^ 30 ∧
  p.1 + 1 < p.2.length

/-- The padded final bit stream produced from state `e` by encoding `pairs`
and finishing. -/
def encFinBits (pairs : List (Nat × List Nat)) (e : ArithmeticEncoder) : List Nat :=
  bytesBits ((pairs.foldl (fun a p => a.encodeWithCumulative p.1 p.2) e).finish).output.buffer

theorem encFinBits_cons (σ : Nat) (C : List Nat) (rest : List (Nat × List Nat))
    (e : ArithmeticEncoder) :
    encFinBits ((σ, C) :: rest) e = encFinBits rest (e.encodeWithCumulative σ C) := by
  unfold encFinBits
  rw [List.foldl_cons]

theorem byteBits_le_one (b : Nat) : ∀ x ∈ byteBits b, x ≤ 1 :=
  natBitsMSB_le_one b 8

theorem bytesBits_le_one (data : List Nat) : ∀ x ∈ bytesBits data, x ≤ 1 := by
  intro x hx
  unfold bytesBits at hx
  rw [List.mem_flatten] at hx
  obtain ⟨l, hl, hxl⟩ := hx
  rw [List.mem_map] at hl
  obtain ⟨b, -, rfl⟩ := hl
  exact byteBits_le_one b x hxl

theorem outBits_le_one (s : BitOutputStream) : ∀ x ∈ s.outBits, x ≤ 1 := by
  intro x hx
  rcases List.mem_append.mp hx with h | h
  · exact bytesBits_le_one _ _ h
  · exact natBitsMSB_le_one _ _ _ h

theorem foldl_bits_init (l : List Nat) (a0 : Nat) :
    l.foldl (fun a b => 2 * a + b) a0 = a0 * 2 ^ l.length + bitsVal l := by
  induction l generalizing a0 with
  | nil => simp [bitsVal]
  | cons x l ih =>
    show l.foldl _ (2 * a0 + x) = _
    rw [ih (2 * a0 + x)]
    have hx : bitsVal (x :: l) = x * 2 ^ l.length + bitsVal l := by
      show l.foldl _ (2 * 0 + x) = _
      rw [ih (2 * 0 + x)]
      ring
    rw [hx]
    simp [List.length_cons]
    ring

theorem bitsVal_cons (x : Nat) (l : List Nat) :
    bitsVal (x :: l) = x * 2 ^ l.length + bitsVal l := by
  show l.foldl _ (2 * 0 + x) = _
  rw [foldl_bits_init]
  ring

theorem bitsVal_append (l1 l2 : List Nat) :
    bitsVal (l1 ++ l2) = bitsVal l1 * 2 ^ l2.length + bitsVal l2 := by
  unfold bitsVal
  rw [List.foldl_append]
  rw [show List.foldl (fun a b => 2 * a + b) 0 l1 = bitsVal l1 from rfl]
  rw [foldl_bits_init]
  rfl

theorem bitsVal_lt (l : List Nat) (hl : ∀ b ∈ l, b ≤ 1) :
    bitsVal l < 2 ^ l.length := by
  induction l with
  | nil => simp [bitsVal]
  | cons x l ih =>
    rw [bitsVal_cons]
    have hx : x ≤ 1 := hl x (by simp)
    have := ih (fun b hb => hl b (by simp [hb]))
    have h2 : (2 : Nat) ^ (x :: l).length = 2 * 2 ^ l.length := by
      simp [List.length_cons]
      ring
    rw [h2]
    have : x * 2 ^ l.length ≤ 2 ^ l.length := by
      calc x * 2 ^ l.length ≤ 1 * 2 ^ l.length := Nat.mul_le_mul_right _ hx
        _ = 2 ^ l.length := by ring
    omega

theorem bitsVal_replicate (p c : Nat) :
    bitsVal (List.replicate p c) = c * (2 ^ p - 1) := by
  induction p with
  | zero => simp [bitsVal]
  | succ p ih =>
    rw [List.replicate_succ, bitsVal_cons, List.length_replicate, ih]
    have h1 : (1 : Nat) ≤ 2 ^ p := Nat.one_le_two_pow
    have h2 : (1 : Nat) ≤ 2 ^ (p + 1) := Nat.one_le_two_pow
    zify [h1, h2]
    ring

theorem Vbits_succ_eq (F : List Nat) (m : Nat) :
    Vbits F (m + 1) = 2 * Vbits F m + F.getD m 0 := rfl

theorem Vbits_prefix (F : List Nat) (hb : ∀ b ∈ F, b ≤ 1) :
    ∀ m, m ≤ F.length →
      bitsVal F = Vbits F m * 2 ^ (F.length - m) + bitsVal (F.drop m) ∧
        bitsVal (F.drop m) < 2 ^ (F.length - m) := by
  intro m
  induction m with
  | zero =>
    intro _
    refine ⟨by simp [Vbits], by simpa using bitsVal_lt F hb⟩
  | succ m ih =>
    intro hm1
    obtain ⟨e1, e2⟩ := ih (by omega)
    have hmlt : m < F.length := by omega
    have hdrop : F.drop m = F.getD m 0 :: F.drop (m + 1) := by
      rw [List.drop_eq_getElem_cons hmlt]
      congr 1
      rw [List.getD_eq_getElem _ _ hmlt]
    have hlen1 : (F.drop (m + 1)).length = F.length - (m + 1) := by
      simp [List.length_drop]
    have hrest : bitsVal (F.drop (m + 1)) < 2 ^ (F.length - (m + 1)) := by
      rw [← hlen1]
      exact bitsVal_lt _ (fun b hbm => hb b (List.mem_of_mem_drop hbm))
    constructor
    · rw [e1, hdrop, bitsVal_cons, hlen1]
      rw [Vbits_succ_eq]
      have hsplit : F.length - m = (F.length - (m + 1)) + 1 := by omega
      rw [hsplit]
      ring
    · exact hrest

theorem Vbits_at_len (F : List Nat) (hb : ∀ b ∈ F, b ≤ 1) :
    Vbits F F.length = bitsVal F := by
  obtain ⟨e1, -⟩ := Vbits_prefix F hb F.length (le_refl _)
  rw [Nat.sub_self, pow_zero, List.drop_length, Nat.mul_one] at e1
  have hz : bitsVal ([] : List Nat) = 0 := rfl
  omega

theorem Vbits_ge_len (F : List Nat) (hb : ∀ b ∈ F, b ≤ 1) (m : Nat)
    (hm : F.length ≤ m) : Vbits F m = bitsVal F * 2 ^ (m - F.length) := by
  induction m with
  | zero =>
    have hF : F.length = 0 := by omega
    rw [hF]
    show (0 : Nat) = bitsVal F * 2 ^ 0
    have : F = [] := List.length_eq_zero.mp hF
    simp [this, bitsVal]
  | succ m ih =>
    rcases Nat.lt_or_ge F.length (m + 1) with h | h
    · have hm' : F.length ≤ m := by omega
      rw [Vbits_succ_eq, ih hm', List.getD_eq_default _ _ hm']
      have : m + 1 - F.length = (m - F.length) + 1 := by omega
      rw [this]
      ring
    · have hF : F.length = m + 1 := by omega
      rw [hF, Nat.sub_self, pow_zero, Nat.mul_one]
      rw [← hF]
      exact Vbits_at_len F hb

theorem Vbits_div (F : List Nat) (hb : ∀ b ∈ F, b ≤ 1) (m : Nat) :
    Vbits F m = bitsVal F * 2 ^ m / 2 ^ F.length := by
  rcases le_or_lt m F.length with h | h
  · obtain ⟨e1, e2⟩ := Vbits_prefix F hb m h
    rw [e1]
    have hsplit : (2 : Nat) ^ F.length = 2 ^ (F.length - m) * 2 ^ m := by
      rw [← pow_add]
      congr 1
      omega
    rw [hsplit]
    rw [show (Vbits F m * 2 ^ (F.length - m) + bitsVal (F.drop m)) * 2 ^ m =
      (2 ^ (F.length - m) * 2 ^ m) * Vbits F m + bitsVal (F.drop m) * 2 ^ m by ring]
    rw [Nat.mul_add_div (by positivity)]
    have hz : bitsVal (F.drop m) * 2 ^ m / (2 ^ (F.length - m) * 2 ^ m) = 0 := by
      apply Nat.div_eq_of_lt
      exact Nat.mul_lt_mul_of_lt_of_le e2 (le_refl _) (by positivity)
    rw [hz]
    omega
  · rw [Vbits_ge_len F hb m (by omega)]
    have hsplit : (2 : Nat) ^ m = 2 ^ (m - F.length) * 2 ^ F.length := by
      rw [← pow_add]
      congr 1
      omega
    rw [hsplit, ← Nat.mul_assoc]
    exact (Nat.mul_div_cancel _ (by positivity)).symm

theorem sandwich_V (F : List Nat) (hb : ∀ b ∈ F, b ≤ 1) (A B m : Nat)
    (h1 : A * 2 ^ F.length ≤ bitsVal F * 2 ^ m)
    (h2 : bitsVal F * 2 ^ m < B * 2 ^ F.length) :
    A ≤ Vbits F m ∧ Vbits F m < B := by
  rw [Vbits_div F hb m]
  constructor
  · rw [Nat.le_div_iff_mul_le (by positivity)]
    exact h1
  · rw [Nat.div_lt_iff_lt_mul (by positivity)]
    exact h2

theorem Vbits_eq_foldl (F : List Nat) (m : Nat) :
    Vbits F m = ((List.range m).map (fun i => F.getD i 0)).foldl
      (fun a b => 2 * a + b) 0 := by
  induction m with
  | zero => rfl
  | succ m ih =>
    rw [Vbits_succ_eq, ih, List.range_succ, List.map_append, List.foldl_append]
    rfl

theorem range_foldl_writeBit (x : BitOutputStream) (c p : Nat) :
    (List.range p).foldl (fun o _ => o.writeBit c) x =
      x.writeList (List.replicate p c) := by
  induction p with
  | zero => rfl
  | succ p ih =>
    rw [List.range_succ, List.foldl_append, ih]
    rw [show List.replicate (p + 1) c = List.replicate p c ++ [c] from
      List.replicate_succ' p c]
    unfold BitOutputStream.writeList
    rw [List.foldl_append]
    rfl

theorem writeBitPlusPending_outBits (out : BitOutputStream) (b p : Nat)
    (hwf : out.WF) (hb : b ≤ 1) :
    (writeBitPlusPending out b p).outBits =
      out.outBits ++ b :: List.replicate p (1 - b) ∧
      (writeBitPlusPending out b p).WF := by
  unfold writeBitPlusPending
  rw [range_foldl_writeBit]
  obtain ⟨h1, h2⟩ := out.outBits_writeBit b hwf
  obtain ⟨h3, h4⟩ := (out.writeBit b).outBits_writeList (List.replicate p (b ^^^ 1)) h2
  refine ⟨?_, h4⟩
  rw [h3, h1]
  have hxor : (b ^^^ 1) % 2 = 1 - b := by
    interval_cases b <;> decide
  have hbm : b % 2 = b := by omega
  rw [List.map_replicate, hxor, hbm, List.append_assoc]
  rfl

theorem encO_emit_key (V A b : Nat) (hA : 1 ≤ A) (hb : b ≤ 1) :
    2 ^ 31 * ((V * (2 * A) + (A - 1 + b)) * 2) =
      2 * (2 ^ 31 * (V * (2 * A) + A - 1) + b * 2 ^ 31) := by
  have h : V * (2 * A) = 2 * (V * A) := by ring
  rw [h]
  generalize V * A = W
  omega

theorem encOAux_emit (E : List Nat) (p b : Nat) (hb : b ≤ 1) :
    encOAux (E ++ b :: List.replicate p (1 - b)) 0 =
      2 * (encOAux E p + b * HALF) := by
  unfold encOAux
  rw [bitsVal_append, bitsVal_cons, bitsVal_replicate, List.length_cons,
    List.length_replicate]
  have h1 : (1 : Nat) ≤ 2 ^ p := Nat.one_le_two_pow
  have key : b * 2 ^ p + (1 - b) * (2 ^ p - 1) = 2 ^ p - 1 + b := by
    interval_cases b <;> omega
  rw [key]
  have hH : HALF = 2 ^ 31 := rfl
  rw [hH]
  simp only [zero_add, pow_one, pow_zero, Nat.add_sub_cancel]
  rw [show (2 : Nat) ^ (p + 1) = 2 * 2 ^ p from by rw [pow_succ]; ring]
  exact encO_emit_key (bitsVal E) (2 ^ p) b h1 hb

theorem encOAux_pending (E : List Nat) (p : Nat) :
    encOAux E (p + 1) = 2 * (encOAux E p + QUARTER) := by
  unfold encOAux
  have h1 : (1 : Nat) ≤ 2 ^ p := Nat.one_le_two_pow
  have hQ : QUARTER = 2 ^ 30 := rfl
  rw [hQ]
  rw [show (2 : Nat) ^ (p + 1 + 1) = 2 * 2 ^ p * 2 from by
    rw [pow_succ, pow_succ]; ring]
  rw [show (2 : Nat) ^ (p + 1) = 2 * 2 ^ p from by rw [pow_succ]; ring]
  have h : bitsVal E * (2 * 2 ^ p * 2) = 4 * (bitsVal E * 2 ^ p) := by ring
  have h2 : bitsVal E * (2 * 2 ^ p) = 2 * (bitsVal E * 2 ^ p) := by ring
  rw [h, h2]
  generalize bitsVal E * 2 ^ p = W
  omega

theorem encRenorm_pres (fuel : Nat) : ∀ (e : ArithmeticEncoder),
    e.output.WF → e.low ≤ e.high → e.high < 2 ^ 32 →
    2 ^ 31 < (e.high - e.low + 1) * 2 ^ fuel →
    ∃ k,
      (encRenorm fuel e).low + encO (encRenorm fuel e) = (e.low + encO e) * 2 ^ k ∧
      (encRenorm fuel e).high + 1 + encO (encRenorm fuel e) =
        (e.high + 1 + encO e) * 2 ^ k ∧
      (encRenorm fuel e).output.WF ∧ EncReady (encRenorm fuel e) ∧
      encShifts (encRenorm fuel e) = encShifts e + k := by
  induction fuel with
  | zero =>
    intro e hwf hle hhi hfuel
    rw [pow_zero, Nat.mul_one] at hfuel
    have h0 : encRenorm 0 e = e := rfl
    refine ⟨0, ?_, ?_, ?_, ?_, ?_⟩ <;> rw [h0]
    · simp
    · simp
    · exact hwf
    · unfold EncReady HALF QUARTER THREE_QUARTERS
      omega
    · simp
  | succ fuel ih =>
    intro e hwf hle hhi hfuel
    have hH : HALF = 2 ^ 31 := rfl
    have hQ : QUARTER = 2 ^ 30 := rfl
    have hT : THREE_QUARTERS = 3 * 2 ^ 30 := rfl
    by_cases h1 : e.high < HALF
    · have hunf : encRenorm (fuel + 1) e =
          encRenorm fuel ⟨e.low * 2 % 2 ^ 32, (e.high * 2 + 1) % 2 ^ 32, 0,
            writeBitPlusPending e.output 0 e.pendingBits⟩ := by
        conv_lhs => unfold encRenorm
        rw [if_pos h1]
      obtain ⟨hout, hwf1⟩ :=
        writeBitPlusPending_outBits e.output 0 e.pendingBits hwf (by norm_num)
      have hm1 : e.low * 2 % 2 ^ 32 = e.low * 2 := Nat.mod_eq_of_lt (by omega)
      have hm2 : (e.high * 2 + 1) % 2 ^ 32 = e.high * 2 + 1 :=
        Nat.mod_eq_of_lt (by omega)
      set e₁ : ArithmeticEncoder :=
        ⟨e.low * 2 % 2 ^ 32, (e.high * 2 + 1) % 2 ^ 32, 0,
          writeBitPlusPending e.output 0 e.pendingBits⟩ with he₁
      have hOe : encO e₁ = 2 * (encO e + 0 * HALF) := by
        show encOAux (writeBitPlusPending e.output 0 e.pendingBits).outBits 0 = _
        rw [hout]
        exact encOAux_emit _ _ _ (by norm_num)
      have hlo1 : e₁.low = e.low * 2 := hm1
      have hhi1 : e₁.high = e.high * 2 + 1 := hm2
      have hfuel1 : 2 ^ 31 < (e₁.high - e₁.low + 1) * 2 ^ fuel := by
        rw [hlo1, hhi1]
        have hw : e.high * 2 + 1 - e.low * 2 + 1 = 2 * (e.high - e.low + 1) := by
          omega
        rw [hw]
        rw [pow_succ] at hfuel
        calc 2 ^ 31 < (e.high - e.low + 1) * (2 ^ fuel * 2) := hfuel
          _ = 2 * (e.high - e.low + 1) * 2 ^ fuel := by ring
      obtain ⟨k, hk1, hk2, hk3, hk4, hk5⟩ :=
        ih e₁ hwf1 (by rw [hlo1, hhi1]; omega) (by rw [hhi1]; omega) hfuel1
      have hcomb1 : e₁.low + encO e₁ = 2 * (e.low + encO e) := by
        rw [hlo1, hOe]; omega
      have hcomb2 : e₁.high + 1 + encO e₁ = 2 * (e.high + 1 + encO e) := by
        rw [hhi1, hOe]; omega
      rw [hunf]
      refine ⟨k + 1, ?_, ?_, hk3, hk4, ?_⟩
      · rw [hk1, hcomb1, pow_succ]; ring
      · rw [hk2, hcomb2, pow_succ]; ring
      · rw [hk5]
        have hsh : encShifts e₁ = encShifts e + 1 := by
          show e₁.output.outBits.length + e₁.pendingBits = _
          have : e₁.output = writeBitPlusPending e.output 0 e.pendingBits := rfl
          rw [this, hout]
          simp [encShifts, List.length_append, List.length_replicate]
          omega
        rw [hsh]
        omega
    · by_cases h2 : HALF ≤ e.low
      · have hunf : encRenorm (fuel + 1) e =
            encRenorm fuel ⟨(e.low - HALF) * 2 % 2 ^ 32,
              ((e.high - HALF) * 2 + 1) % 2 ^ 32, 0,
              writeBitPlusPending e.output 1 e.pendingBits⟩ := by
          conv_lhs => unfold encRenorm
          rw [if_neg h1, if_pos h2]
        obtain ⟨hout, hwf1⟩ :=
          writeBitPlusPending_outBits e.output 1 e.pendingBits hwf (by norm_num)
        have hm1 : (e.low - HALF) * 2 % 2 ^ 32 = (e.low - HALF) * 2 :=
          Nat.mod_eq_of_lt (by omega)
        have hm2 : ((e.high - HALF) * 2 + 1) % 2 ^ 32 = (e.high - HALF) * 2 + 1 :=
          Nat.mod_eq_of_lt (by omega)
        set e₁ : ArithmeticEncoder :=
          ⟨(e.low - HALF) * 2 % 2 ^ 32, ((e.high - HALF) * 2 + 1) % 2 ^ 32, 0,
            writeBitPlusPending e.output 1 e.pendingBits⟩ with he₁
        have hOe : encO e₁ = 2 * (encO e + 1 * HALF) := by
          show encOAux (writeBitPlusPending e.output 1 e.pendingBits).outBits 0 = _
          rw [hout]
          exact encOAux_emit _ _ _ (by norm_num)
        have hlo1 : e₁.low = (e.low - HALF) * 2 := hm1
        have hhi1 : e₁.high = (e.high - HALF) * 2 + 1 := hm2
        have hfuel1 : 2 ^ 31 < (e₁.high - e₁.low + 1) * 2 ^ fuel := by
          rw [hlo1, hhi1]
          have hw : (e.high - HALF) * 2 + 1 - (e.low - HALF) * 2 + 1 =
              2 * (e.high - e.low + 1) := by omega
          rw [hw]
          rw [pow_succ] at hfuel
          calc 2 ^ 31 < (e.high - e.low + 1) * (2 ^ fuel * 2) := hfuel
            _ = 2 * (e.high - e.low + 1) * 2 ^ fuel := by ring
        obtain ⟨k, hk1, hk2, hk3, hk4, hk5⟩ :=
          ih e₁ hwf1 (by rw [hlo1, hhi1]; omega) (by rw [hhi1]; omega) hfuel1
        have hcomb1 : e₁.low + encO e₁ = 2 * (e.low + encO e) := by
          rw [hlo1, hOe]; omega
        have hcomb2 : e₁.high + 1 + encO e₁ = 2 * (e.high + 1 + encO e) := by
          rw [hhi1, hOe]; omega
        rw [hunf]
        refine ⟨k + 1, ?_, ?_, hk3, hk4, ?_⟩
        · rw [hk1, hcomb1, pow_succ]; ring
        · rw [hk2, hcomb2, pow_succ]; ring
        · rw [hk5]
          have hsh : encShifts e₁ = encShifts e + 1 := by
            show e₁.output.outBits.length + e₁.pendingBits = _
            have : e₁.output = writeBitPlusPending e.output 1 e.pendingBits := rfl
            rw [this, hout]
            simp [encShifts, List.length_append, List.length_replicate]
            omega
          rw [hsh]
          omega
      · by_cases h3 : QUARTER ≤ e.low ∧ e.high < THREE_QUARTERS
        · have hunf : encRenorm (fuel + 1) e =
              encRenorm fuel ⟨(e.low - QUARTER) * 2 % 2 ^ 32,
                ((e.high - QUARTER) * 2 + 1) % 2 ^ 32, e.pendingBits + 1,
                e.output⟩ := by
            conv_lhs => unfold encRenorm
            rw [if_neg h1, if_neg h2, if_pos h3]
          obtain ⟨h3a, h3b⟩ := h3
          have hm1 : (e.low - QUARTER) * 2 % 2 ^ 32 = (e.low - QUARTER) * 2 :=
            Nat.mod_eq_of_lt (by omega)
          have hm2 : ((e.high - QUARTER) * 2 + 1) % 2 ^ 32 =
              (e.high - QUARTER) * 2 + 1 := Nat.mod_eq_of_lt (by omega)
          set e₁ : ArithmeticEncoder :=
            ⟨(e.low - QUARTER) * 2 % 2 ^ 32, ((e.high - QUARTER) * 2 + 1) % 2 ^ 32,
              e.pendingBits + 1, e.output⟩ with he₁
          have hOe : encO e₁ = 2 * (encO e + QUARTER) := by
            show encOAux e.output.outBits (e.pendingBits + 1) = _
            exact encOAux_pending _ _
          have hlo1 : e₁.low = (e.low - QUARTER) * 2 := hm1
          have hhi1 : e₁.high = (e.high - QUARTER) * 2 + 1 := hm2
          have hfuel1 : 2 ^ 31 < (e₁.high - e₁.low + 1) * 2 ^ fuel := by
            rw [hlo1, hhi1]
            have hw : (e.high - QUARTER) * 2 + 1 - (e.low - QUARTER) * 2 + 1 =
                2 * (e.high - e.low + 1) := by omega
            rw [hw]
            rw [pow_succ] at hfuel
            calc 2 ^ 31 < (e.high - e.low + 1) * (2 ^ fuel * 2) := hfuel
              _ = 2 * (e.high - e.low + 1) * 2 ^ fuel := by ring
          obtain ⟨k, hk1, hk2, hk3, hk4, hk5⟩ :=
            ih e₁ hwf (by rw [hlo1, hhi1]; omega) (by rw [hhi1]; omega) hfuel1
          have hcomb1 : e₁.low + encO e₁ = 2 * (e.low + encO e) := by
            rw [hlo1, hOe]; omega
          have hcomb2 : e₁.high + 1 + encO e₁ = 2 * (e.high + 1 + encO e) := by
            rw [hhi1, hOe]; omega
          rw [hunf]
          refine ⟨k + 1, ?_, ?_, hk3, hk4, ?_⟩
          · rw [hk1, hcomb1, pow_succ]; ring
          · rw [hk2, hcomb2, pow_succ]; ring
          · rw [hk5]
            have hsh : encShifts e₁ = encShifts e + 1 := by
              show e₁.output.outBits.length + e₁.pendingBits = _
              simp [encShifts]
              omega
            rw [hsh]
            omega
        · have hunf : encRenorm (fuel + 1) e = e := by
            conv_lhs => unfold encRenorm
            rw [if_neg h1, if_neg h2, if_neg h3]
          rw [hunf]
          refine ⟨0, by simp, by simp, hwf, ?_, by simp⟩
          exact ⟨by omega, by omega, hhi, h3⟩

theorem table_mono_lt (C : List Nat)
    (hmono : ∀ i, i + 1 < C.length → C.getD i 0 < C.getD (i + 1) 0) :
    ∀ j, j < C.length → ∀ i, i < j → C.getD i 0 < C.getD j 0 := by
  intro j
  induction j with
  | zero => intro _ i hi; omega
  | succ j ih =>
    intro hj i hi
    rcases Nat.lt_or_ge i j with h | h
    · exact lt_trans (ih (by omega) i h) (hmono j hj)
    · have hij : i = j := by omega
      rw [hij]
      exact hmono j hj

theorem table_mono_le (C : List Nat)
    (hmono : ∀ i, i + 1 < C.length → C.getD i 0 < C.getD (i + 1) 0)
    (i j : Nat) (hij : i ≤ j) (hj : j < C.length) : C.getD i 0 ≤ C.getD j 0 := by
  rcases Nat.lt_or_ge i j with h | h
  · exact le_of_lt (table_mono_lt C hmono j hj i h)
  · have : i = j := by omega
    rw [this]

theorem div_add_div_le (x y T : Nat) (hT : 0 < T) :
    x / T + y / T ≤ (x + y) / T := by
  rw [Nat.le_div_iff_mul_le hT, Nat.add_mul]
  exact Nat.add_le_add (Nat.div_mul_le_self x T) (Nat.div_mul_le_self y T)

theorem encode_step_facts (low high σ : Nat) (C : List Nat)
    (hv : ValidStep (σ, C)) (hlo : low < HALF) (hhi2 : HALF ≤ high)
    (hhi : high < 2 ^ 32) (hnc : ¬(QUARTER ≤ low ∧ high < THREE_QUARTERS)) :
    (low + (high - low + 1) * C.getD σ 0 / C.getD (C.length - 1) 0) % 2 ^ 32 =
      low + (high - low + 1) * C.getD σ 0 / C.getD (C.length - 1) 0 ∧
    (low + (high - low + 1) * C.getD (σ + 1) 0 / C.getD (C.length - 1) 0 +
        2 ^ 32 - 1) % 2 ^ 32 =
      low + (high - low + 1) * C.getD (σ + 1) 0 / C.getD (C.length - 1) 0 - 1 ∧
    low + (high - low + 1) * C.getD σ 0 / C.getD (C.length - 1) 0 + 1 ≤
      low + (high - low + 1) * C.getD (σ + 1) 0 / C.getD (C.length - 1) 0 ∧
    low + (high - low + 1) * C.getD (σ + 1) 0 / C.getD (C.length - 1) 0 - 1 ≤
      high ∧
    2 ^ 30 < high - low + 1 ∧ 1 ≤ C.getD (C.length - 1) 0 ∧
    C.getD σ 0 < C.getD (σ + 1) 0 ∧
    C.getD (σ + 1) 0 ≤ C.getD (C.length - 1) 0 ∧
    C.getD (C.length - 1) 0 < 2 ^ 30 := by
  obtain ⟨hv1, hv2, hv3, hv4⟩ := hv
  have hH : HALF = 2 ^ 31 := rfl
  have hQ : QUARTER = 2 ^ 30 := rfl
  have hT3 : THREE_QUARTERS = 3 * 2 ^ 30 := rfl
  set a := C.getD σ 0 with ha
  set c := C.getD (σ + 1) 0 with hc
  set T := C.getD (C.length - 1) 0 with hT
  set rng := high - low + 1 with hrng
  have hσlen : σ + 1 < C.length := hv4
  have hac : a < c := table_mono_lt C hv2 (σ + 1) hσlen σ (by omega)
  have hcT : c ≤ T := table_mono_le C hv2 (σ + 1) (C.length - 1) (by omega) (by omega)
  have hT1 : 1 ≤ T := by omega
  have hrange : 2 ^ 30 < rng := by
    rw [hrng]
    omega
  have hcTq : rng * c / T ≤ rng := Nat.div_le_of_le_mul (by
    calc rng * c ≤ rng * T := Nat.mul_le_mul_left _ hcT
      _ = T * rng := Nat.mul_comm _ _)
  have hc1 : 1 ≤ rng * c / T := by
    rw [Nat.one_le_div_iff (by omega)]
    calc T ≤ rng := by omega
      _ = rng * 1 := by ring
      _ ≤ rng * c := Nat.mul_le_mul_left _ (by omega)
  have hlh : rng * a / T + 1 ≤ rng * c / T := by
    have hs1 : 1 ≤ rng * (c - a) / T := by
      rw [Nat.one_le_div_iff (by omega)]
      calc T ≤ rng := by omega
        _ = rng * 1 := by ring
        _ ≤ rng * (c - a) := Nat.mul_le_mul_left _ (by omega)
    have hs2 : rng * a / T + rng * (c - a) / T ≤ rng * c / T := by
      have := div_add_div_le (rng * a) (rng * (c - a)) T (by omega)
      rwa [show rng * a + rng * (c - a) = rng * c from by
        rw [← Nat.mul_add]
        congr 1
        omega] at this
    omega
  have hhigh : low + rng * c / T - 1 ≤ high := by
    have : rng * c / T ≤ rng := hcTq
    omega
  refine ⟨?_, ?_, by omega, hhigh, hrange, hT1, hac, hcT, hv3⟩
  · apply Nat.mod_eq_of_lt
    have : rng * a / T + 1 ≤ rng * c / T := hlh
    omega
  · have h1 : 1 ≤ low + rng * c / T := by omega
    have h2 : low + rng * c / T - 1 ≤ high := hhigh
    omega

theorem renorm_transport (e₀ : ArithmeticEncoder) (F : List Nat)
    (hwf : e₀.output.WF) (hle : e₀.low ≤ e₀.high) (hhi : e₀.high < 2 ^ 32)
    (hs : ((encRenorm 40 e₀).low + encO (encRenorm 40 e₀)) * 2 ^ F.length ≤
        bitsVal F * 2 ^ (encShifts (encRenorm 40 e₀) + 32) ∧
      bitsVal F * 2 ^ (encShifts (encRenorm 40 e₀) + 32) <
        ((encRenorm 40 e₀).high + 1 + encO (encRenorm 40 e₀)) * 2 ^ F.length) :
    (e₀.low + encO e₀) * 2 ^ F.length ≤ bitsVal F * 2 ^ (encShifts e₀ + 32) ∧
      bitsVal F * 2 ^ (encShifts e₀ + 32) <
        (e₀.high + 1 + encO e₀) * 2 ^ F.length := by
  have hfuel : 2 ^ 31 < (e₀.high - e₀.low + 1) * 2 ^ 40 := by
    calc (2 : Nat) ^ 31 < 1 * 2 ^ 40 := by norm_num
      _ ≤ (e₀.high - e₀.low + 1) * 2 ^ 40 :=
        Nat.mul_le_mul_right _ (by omega)
  obtain ⟨k, hk1, hk2, -, -, hk5⟩ := encRenorm_pres 40 e₀ hwf hle hhi hfuel
  rw [hk1, hk2, hk5] at hs
  obtain ⟨hA, hB⟩ := hs
  have hre : ∀ x : Nat, x * 2 ^ (encShifts e₀ + k + 32) =
      x * 2 ^ (encShifts e₀ + 32) * 2 ^ k := by
    intro x
    rw [show encShifts e₀ + k + 32 = encShifts e₀ + 32 + k from by omega, pow_add]
    ring
  rw [hre] at hA hB
  constructor
  · have hA' : (e₀.low + encO e₀) * 2 ^ F.length * 2 ^ k ≤
        bitsVal F * 2 ^ (encShifts e₀ + 32) * 2 ^ k := by
      calc (e₀.low + encO e₀) * 2 ^ F.length * 2 ^ k
          = (e₀.low + encO e₀) * 2 ^ k * 2 ^ F.length := by ring
        _ ≤ bitsVal F * 2 ^ (encShifts e₀ + 32) * 2 ^ k := hA
    exact Nat.le_of_mul_le_mul_right hA' (by positivity)
  · have hB' : bitsVal F * 2 ^ (encShifts e₀ + 32) * 2 ^ k <
        (e₀.high + 1 + encO e₀) * 2 ^ F.length * 2 ^ k := by
      calc bitsVal F * 2 ^ (encShifts e₀ + 32) * 2 ^ k
          < (e₀.high + 1 + encO e₀) * 2 ^ k * 2 ^ F.length := hB
        _ = (e₀.high + 1 + encO e₀) * 2 ^ F.length * 2 ^ k := by ring
    exact Nat.lt_of_mul_lt_mul_right hB'

theorem finish_core (E : List Nat) (p low high b pad : Nat) (hb : b ≤ 1)
    (hlowb : low ≤ 2 ^ 30 * (1 + b)) (hhighb : 2 ^ 30 * (1 + b) ≤ high)
    (F : List Nat)
    (hFeq : F = (E ++ b :: List.replicate (p + 1) (1 - b)) ++
      List.replicate pad 0) :
    (low + encOAux E p) * 2 ^ F.length ≤
        bitsVal F * 2 ^ (E.length + p + 32) ∧
      bitsVal F * 2 ^ (E.length + p + 32) <
        (high + 1 + encOAux E p) * 2 ^ F.length := by
  have h1 : (1 : Nat) ≤ 2 ^ p := Nat.one_le_two_pow
  have hlen : F.length = E.length + p + 2 + pad := by
    rw [hFeq]
    simp [List.length_append, List.length_replicate]
    omega
  have hNval : bitsVal (E ++ b :: List.replicate (p + 1) (1 - b)) =
      bitsVal E * (2 ^ p * 4) + (2 ^ p * 2 - 1 + b) := by
    rw [bitsVal_append, bitsVal_cons, bitsVal_replicate, List.length_cons,
      List.length_replicate]
    have h2 : (1 : Nat) ≤ 2 ^ (p + 1) := Nat.one_le_two_pow
    have key : b * 2 ^ (p + 1) + (1 - b) * (2 ^ (p + 1) - 1) =
        2 ^ (p + 1) - 1 + b := by
      interval_cases b <;> omega
    rw [key]
    rw [show (2 : Nat) ^ (p + 1 + 1) = 2 ^ p * 4 from by
      rw [pow_succ, pow_succ]; ring]
    rw [show (2 : Nat) ^ (p + 1) = 2 ^ p * 2 from pow_succ 2 p]
  have hval : bitsVal F =
      (bitsVal E * (2 ^ p * 4) + (2 ^ p * 2 - 1 + b)) * 2 ^ pad := by
    rw [hFeq, bitsVal_append, List.length_replicate, bitsVal_replicate, hNval]
    omega
  have hN30 : (bitsVal E * (2 ^ p * 4) + (2 ^ p * 2 - 1 + b)) * 2 ^ 30 =
      encOAux E p + 2 ^ 30 * (1 + b) := by
    unfold encOAux
    rw [show (2 : Nat) ^ (p + 1) = 2 ^ p * 2 from pow_succ 2 p]
    have e1 : bitsVal E * (2 ^ p * 4) = 4 * (bitsVal E * 2 ^ p) := by ring
    have e2 : bitsVal E * (2 ^ p * 2) = 2 * (bitsVal E * 2 ^ p) := by ring
    rw [e1, e2]
    generalize bitsVal E * 2 ^ p = W
    omega
  have hmain : bitsVal F * 2 ^ (E.length + p + 32) =
      (encOAux E p + 2 ^ 30 * (1 + b)) * 2 ^ F.length := by
    rw [hval, ← hN30, hlen]
    rw [mul_assoc, mul_assoc, ← pow_add, ← pow_add]
    congr 2
    omega
  rw [hmain]
  constructor
  · exact Nat.mul_le_mul_right _ (by omega)
  · exact Nat.mul_lt_mul_of_lt_of_le (by omega) (le_refl _) (by positivity)

theorem finish_sandwich (e : ArithmeticEncoder) (hwf : e.output.WF)
    (hrdy : EncReady e) :
    (e.low + encO e) * 2 ^ (bytesBits e.finish.output.buffer).length ≤
        bitsVal (bytesBits e.finish.output.buffer) * 2 ^ (encShifts e + 32) ∧
      bitsVal (bytesBits e.finish.output.buffer) * 2 ^ (encShifts e + 32) <
        (e.high + 1 + encO e) * 2 ^ (bytesBits e.finish.output.buffer).length := by
  obtain ⟨hr1, hr2, hr3, hr4⟩ := hrdy
  have hH : HALF = 2 ^ 31 := rfl
  have hQ : QUARTER = 2 ^ 30 := rfl
  have hsh : encShifts e + 32 = e.output.outBits.length + e.pendingBits + 32 := rfl
  rw [hsh]
  by_cases hb : e.low < QUARTER
  · have hfin : e.finish.output =
        (writeBitPlusPending e.output 0 (e.pendingBits + 1)).flush := by
      unfold ArithmeticEncoder.finish
      rw [if_pos hb]
    obtain ⟨hout, hwf1⟩ :=
      writeBitPlusPending_outBits e.output 0 (e.pendingBits + 1) hwf (by norm_num)
    obtain ⟨hfl, -⟩ := BitOutputStream.flush_bytesBits _ hwf1
    rw [hfin, hfl, hout]
    exact finish_core e.output.outBits e.pendingBits e.low e.high 0 _
      (by norm_num) (by omega) (by omega) _ rfl
  · have hfin : e.finish.output =
        (writeBitPlusPending e.output 1 (e.pendingBits + 1)).flush := by
      unfold ArithmeticEncoder.finish
      rw [if_neg hb]
    obtain ⟨hout, hwf1⟩ :=
      writeBitPlusPending_outBits e.output 1 (e.pendingBits + 1) hwf (by norm_num)
    obtain ⟨hfl, -⟩ := BitOutputStream.flush_bytesBits _ hwf1
    rw [hfin, hfl, hout]
    exact finish_core e.output.outBits e.pendingBits e.low e.high 1 _
      (by norm_num) (by omega) (by omega) _ rfl

theorem encode_sandwich (pairs : List (Nat × List Nat)) : ∀ (e : ArithmeticEncoder),
    (∀ q ∈ pairs, ValidStep q) → e.output.WF → EncReady e →
    (e.low + encO e) * 2 ^ (encFinBits pairs e).length ≤
        bitsVal (encFinBits pairs e) * 2 ^ (encShifts e + 32) ∧
      bitsVal (encFinBits pairs e) * 2 ^ (encShifts e + 32) <
        (e.high + 1 + encO e) * 2 ^ (encFinBits pairs e).length := by
  induction pairs with
  | nil =>
    intro e hv hwf hrdy
    exact finish_sandwich e hwf hrdy
  | cons pc rest ih =>
    intro e hv hwf hrdy
    obtain ⟨σ, C⟩ := pc
    have hvp : ValidStep (σ, C) := hv _ (by simp)
    have hvr : ∀ q ∈ rest, ValidStep q := fun q hq => hv q (by simp [hq])
    obtain ⟨hr1, hr2, hr3, hr4⟩ := hrdy
    obtain ⟨hm1, hm2, hll, hhh, hrange, hT1, hac, hcT, hTlt⟩ :=
      encode_step_facts e.low e.high σ C hvp hr1 hr2 hr3 hr4
    have hunf : e.encodeWithCumulative σ C =
        encRenorm 40
          ⟨e.low + (e.high - e.low + 1) * C.getD σ 0 / C.getD (C.length - 1) 0,
            e.low + (e.high - e.low + 1) * C.getD (σ + 1) 0 /
              C.getD (C.length - 1) 0 - 1,
            e.pendingBits, e.output⟩ := by
      show encRenorm 40
          ⟨(e.low + (e.high - e.low + 1) * C.getD σ 0 /
              C.getD (C.length - 1) 0) % 2 ^ 32,
            (e.low + (e.high - e.low + 1) * C.getD (σ + 1) 0 /
              C.getD (C.length - 1) 0 + 2 ^ 32 - 1) % 2 ^ 32,
            e.pendingBits, e.output⟩ = _
      rw [hm1, hm2]
    have hwidth : e.low + (e.high - e.low + 1) * C.getD σ 0 /
          C.getD (C.length - 1) 0 ≤
        e.low + (e.high - e.low + 1) * C.getD (σ + 1) 0 /
          C.getD (C.length - 1) 0 - 1 := by
      omega
    have hsthi : e.low + (e.high - e.low + 1) * C.getD (σ + 1) 0 /
        C.getD (C.length - 1) 0 - 1 < 2 ^ 32 := by
      omega
    have hfuel : 2 ^ 31 <
        (e.low + (e.high - e.low + 1) * C.getD (σ + 1) 0 /
            C.getD (C.length - 1) 0 - 1 -
          (e.low + (e.high - e.low + 1) * C.getD σ 0 /
            C.getD (C.length - 1) 0) + 1) * 2 ^ 40 := by
      omega
    obtain ⟨k0, -, -, hwf', hrdy', -⟩ :=
      encRenorm_pres 40
        ⟨e.low + (e.high - e.low + 1) * C.getD σ 0 / C.getD (C.length - 1) 0,
          e.low + (e.high - e.low + 1) * C.getD (σ + 1) 0 /
            C.getD (C.length - 1) 0 - 1,
          e.pendingBits, e.output⟩ hwf hwidth hsthi hfuel
    have hIH := ih _ hvr hwf' hrdy'
    have htr := renorm_transport
      ⟨e.low + (e.high - e.low + 1) * C.getD σ 0 / C.getD (C.length - 1) 0,
        e.low + (e.high - e.low + 1) * C.getD (σ + 1) 0 /
          C.getD (C.length - 1) 0 - 1,
        e.pendingBits, e.output⟩ _ hwf hwidth hsthi hIH
    obtain ⟨htr1, htr2⟩ := htr
    rw [encFinBits_cons, hunf]
    constructor
    · calc (e.low + encO e) *
            2 ^ (encFinBits rest (encRenorm 40
              ⟨e.low + (e.high - e.low + 1) * C.getD σ 0 /
                  C.getD (C.length - 1) 0,
                e.low + (e.high - e.low + 1) * C.getD (σ + 1) 0 /
                  C.getD (C.length - 1) 0 - 1,
                e.pendingBits, e.output⟩)).length ≤
          (e.low + (e.high - e.low + 1) * C.getD σ 0 / C.getD (C.length - 1) 0 +
            encO e) *
            2 ^ (encFinBits rest (encRenorm 40
              ⟨e.low + (e.high - e.low + 1) * C.getD σ 0 /
                  C.getD (C.length - 1) 0,
                e.low + (e.high - e.low + 1) * C.getD (σ + 1) 0 /
                  C.getD (C.length - 1) 0 - 1,
                e.pendingBits, e.output⟩)).length :=
            Nat.mul_le_mul_right _ (Nat.add_le_add_right (Nat.le_add_right _ _) _)
        _ ≤ _ := htr1
    · calc bitsVal (encFinBits rest (encRenorm 40
              ⟨e.low + (e.high - e.low + 1) * C.getD σ 0 /
                  C.getD (C.length - 1) 0,
                e.low + (e.high - e.low + 1) * C.getD (σ + 1) 0 /
                  C.getD (C.length - 1) 0 - 1,
                e.pendingBits, e.output⟩)) * 2 ^ (encShifts e + 32) <
          (e.low + (e.high - e.low + 1) * C.getD (σ + 1) 0 /
              C.getD (C.length - 1) 0 - 1 + 1 + encO e) *
            2 ^ (encFinBits rest (encRenorm 40
              ⟨e.low + (e.high - e.low + 1) * C.getD σ 0 /
                  C.getD (C.length - 1) 0,
                e.low + (e.high - e.low + 1) * C.getD (σ + 1) 0 /
                  C.getD (C.length - 1) 0 - 1,
                e.pendingBits, e.output⟩)).length := htr2
        _ ≤ _ := Nat.mul_le_mul_right _ (by omega)
